import Mathlib

/-!
Verification of the puzzle-grid generation engine of the goosepaper
providers (`src/providers/wordsearch.py` and `src/providers/crossword.py`).

The Python code is embedded shallowly:

* a grid cell holds either a single letter or the empty string `""`;
  we model a cell as `Option Char` (`none` is `""`);
* Python list indexing is modelled exactly: a negative index `i` with
  `-len ≤ i < 0` wraps to `len + i`, any other out-of-range index raises
  `IndexError`, which we model with `Except Unit`;
* the process-wide random generator is made explicit: the shuffled /
  drawn values that the code consumes (`random.choice`, `random.shuffle`,
  `random.randint`) become parameters of the generation functions.  A
  fixed seed corresponds to fixed values of these parameters.
-/

/-- A grid cell: `none` models the empty string `""`, `some ch` a letter. -/
abbrev Cell := Option Char

/-- The mutable 2-D character matrix `grid` of both providers. -/
abbrev Grid := List (List Cell)

/-- A word is its sequence of characters. -/
abbrev Word := List Char

/-- Resolution of a Python index `i` into a list of length `n`:
`some k` is the physical position accessed, `none` is an `IndexError`. -/
def pyIdx (n : Nat) (i : Int) : Option Nat :=
  if 0 ≤ i ∧ i < (n : Int) then some i.toNat
  else if -(n : Int) ≤ i ∧ i < 0 then some (i + n).toNat
  else none

/-- Python `l[i]` (read). -/
def pyGet (l : List α) (i : Int) : Except Unit α :=
  match pyIdx l.length i with
  | some k =>
    match l[k]? with
    | some x => .ok x
    | none => .error ()
  | none => .error ()

/-- Python `l[i] = x` (write). -/
def pySet (l : List α) (i : Int) (x : α) : Except Unit (List α) :=
  match pyIdx l.length i with
  | some k => .ok (l.set k x)
  | none => .error ()

/-- `[["" for _ in range(size)] for _ in range(size)]`. -/
def emptyGrid (size : Nat) : Grid :=
  List.replicate size (List.replicate size none)

/-- Direct read of a physical grid position (both coordinates already
resolved to non-negative physical indices); out of range reads give `none`.
Used only where the Python code has itself guarded the indices. -/
def cellAt (g : Grid) (r c : Nat) : Cell :=
  ((g[r]?.getD [])[c]?).getD none

/-- Python `grid[r][c]` (read). -/
def gridGet (g : Grid) (r c : Int) : Except Unit Cell :=
  (pyGet g r).bind fun row => pyGet row c

/-- Python `grid[r][c] = ch` (write). -/
def gridSet (g : Grid) (r c : Int) (ch : Char) : Except Unit Grid :=
  (pyGet g r).bind fun row =>
    (pySet row c (some ch)).bind fun row2 => pySet g r row2

/-- The pair of physical positions a nominal coordinate pair resolves to on a
`size × size` grid (`none` if accessing it would raise `IndexError`). -/
def physPos (size : Nat) (r c : Int) : Option (Nat × Nat) :=
  match pyIdx size r, pyIdx size c with
  | some a, some b => some (a, b)
  | _, _ => none

/-- The conflict scan shared by both providers
(`wordsearch.py` lines 70-74 and `crossword.py` lines 101-105):
for each letter, the target cell must be empty or hold the same letter.
`i` is the running `enumerate` index.  (The perpendicular-neighbour block in
`crossword.py` lines 106-114 is omitted: its reads are bounds-guarded and its
body is `pass`, so it has no effect.) -/
def checkCells (g : Grid) (r c dr dc : Int) : Word → Int → Except Unit Bool
  | [], _ => .ok true
  | ch :: rest, i =>
    (gridGet g (r + dr * i) (c + dc * i)).bind fun existing =>
      if existing ≠ none ∧ existing ≠ some ch then .ok false
      else checkCells g r c dr dc rest (i + 1)

/-- The letter-writing loop shared by both providers
(`wordsearch.py` lines 76-78 and `crossword.py` `_place_word`). -/
def writeCells (g : Grid) (r c dr dc : Int) : Word → Int → Except Unit Grid
  | [], _ => .ok g
  | ch :: rest, i =>
    (gridSet g (r + dr * i) (c + dc * i) ch).bind fun g2 =>
      writeCells g2 r c dr dc rest (i + 1)

/-! ### Crossword provider (`src/providers/crossword.py`) -/

/-- The `direction` strings `"across"` / `"down"` of the crossword code. -/
inductive CWDir
  | across
  | down
deriving DecidableEq, Repr

/-- `(0, 1) if pd == "across" else (1, 0)` — the direction vector. -/
def dirVec : CWDir → Int × Int
  | .across => (0, 1)
  | .down => (1, 0)

/-- `"down" if pd == "across" else "across"` — the crossing orientation. -/
def perpDir : CWDir → CWDir
  | .across => .down
  | .down => .across

/-- One entry of the crossword `placed` list: `(word, clue, row, col, direction)`. -/
structure CWPlacement where
  word : Word
  clue : String
  row : Int
  col : Int
  dir : CWDir
deriving DecidableEq, Repr

/-- The nominal coordinates of the `i`-th letter cell of a placement. -/
def nomCell (p : CWPlacement) (i : Nat) : Int × Int :=
  (p.row + (dirVec p.dir).1 * i, p.col + (dirVec p.dir).2 * i)

/-- `CrosswordStoryProvider._try_place`. -/
def tryPlace (size : Nat) (g : Grid) (w : Word) (r c dr dc : Int) : Except Unit Bool :=
  let endR := r + dr * ((w.length : Int) - 1)
  let endC := c + dc * ((w.length : Int) - 1)
  if ¬ (0 ≤ endR ∧ endR < (size : Int) ∧ 0 ≤ endC ∧ endC < (size : Int)) then .ok false
  else
    (checkCells g r c dr dc w 0).bind fun ok =>
      if ¬ ok then .ok false
      else
        let br := r - dr
        let bc := c - dc
        if (0 ≤ br ∧ br < (size : Int) ∧ 0 ≤ bc ∧ bc < (size : Int)) ∧
            cellAt g br.toNat bc.toNat ≠ none then .ok false
        else
          let ar := r + dr * (w.length : Int)
          let ac := c + dc * (w.length : Int)
          if (0 ≤ ar ∧ ar < (size : Int) ∧ 0 ≤ ac ∧ ac < (size : Int)) ∧
              cellAt g ar.toNat ac.toNat ≠ none then .ok false
          else .ok true

/-- Inner loop of the intersection search (`for j, ch_new in enumerate(word)`):
scan (the rest of) the candidate word for a letter equal to `chP` whose
placement through the anchor cell `(ar, ac)` validates.  `j` is the running
index of the scanned suffix inside the full word `w`. -/
def scanNewLetters (size : Nat) (g : Grid) (w : Word) (chP : Char) (ar ac ndr ndc : Int) :
    Word → Int → Except Unit (Option (Int × Int))
  | [], _ => .ok none
  | chN :: rest, j =>
    if chP = chN then
      (tryPlace size g w (ar - ndr * j) (ac - ndc * j) ndr ndc).bind fun ok =>
        if ok then .ok (some (ar - ndr * j, ac - ndc * j))
        else scanNewLetters size g w chP ar ac ndr ndc rest (j + 1)
    else scanNewLetters size g w chP ar ac ndr ndc rest (j + 1)

/-- Middle loop of the intersection search (`for i, ch_placed in enumerate(pw)`):
walk the letters of the already placed word. -/
def scanAnchorLetters (size : Nat) (g : Grid) (w : Word) (pr pc pdr pdc ndr ndc : Int) :
    Word → Int → Except Unit (Option (Int × Int))
  | [], _ => .ok none
  | chP :: restP, i =>
    (scanNewLetters size g w chP (pr + pdr * i) (pc + pdc * i) ndr ndc w 0).bind fun res =>
      match res with
      | some x => .ok (some x)
      | none => scanAnchorLetters size g w pr pc pdr pdc ndr ndc restP (i + 1)

/-- Outer loop of the intersection search (`for pi, (pw, _, pr, pc, pd) in
enumerate(placed)`): scan the placed words in placement order and return the
first validated crossing as `(wr, wc, new_dir, new_dr, new_dc)`. -/
def scanPlaced (size : Nat) (g : Grid) (w : Word) :
    List CWPlacement → Except Unit (Option (Int × Int × CWDir × Int × Int))
  | [] => .ok none
  | p :: rest =>
    let pv := dirVec p.dir
    let nv := dirVec (perpDir p.dir)
    (scanAnchorLetters size g w p.row p.col pv.1 pv.2 nv.1 nv.2 p.word 0).bind fun res =>
      match res with
      | some x => .ok (some (x.1, x.2, perpDir p.dir, nv.1, nv.2))
      | none => scanPlaced size g w rest

/-- The `for word, clue in word_clues[1:]` loop of
`CrosswordStoryProvider._generate`: try to place each remaining word at the
first validated intersection, else drop it. -/
def placeLoop (size : Nat) (g : Grid) (placed : List CWPlacement) :
    List (Word × String) → Except Unit (Grid × List CWPlacement)
  | [] => .ok (g, placed)
  | (w, cl) :: rest =>
    (scanPlaced size g w placed).bind fun best =>
      match best with
      | none => placeLoop size g placed rest
      | some (wr, wc, nd, ndr, ndc) =>
        (writeCells g wr wc ndr ndc w 0).bind fun g2 =>
          placeLoop size g2 (placed ++ [⟨w, cl, wr, wc, nd⟩]) rest

/-- Stable insertion step for `word_clues.sort(key=lambda x: len(x[0]), reverse=True)`. -/
def insertByLenDesc (x : Word × String) : List (Word × String) → List (Word × String)
  | [] => [x]
  | y :: ys => if y.1.length ≤ x.1.length then x :: y :: ys else y :: insertByLenDesc x ys

/-- Python's stable sort by word length, descending. -/
def sortByLenDesc (l : List (Word × String)) : List (Word × String) :=
  l.foldr insertByLenDesc []

/-- `CrosswordStoryProvider._generate`, from the `word_clues[: self.num_words]`
slice on.  The preceding `random.choice` of a puzzle set and `random.shuffle`
of its pairs are modelled by taking the resulting (already shuffled) pair list
as the input `wordClues`.  `word_clues[0]` on an empty list raises
`IndexError` (`.error`). -/
def crosswordGenerate (size numWords : Nat) (wordClues : List (Word × String)) :
    Except Unit (Grid × List CWPlacement) :=
  match sortByLenDesc (wordClues.take numWords) with
  | [] => .error ()
  | (fw, fc) :: rest =>
    let startC := Int.fdiv ((size : Int) - (fw.length : Int)) 2
    let startR : Int := ((size / 2 : Nat) : Int)
    (writeCells (emptyGrid size) startR startC 0 1 fw 0).bind fun g1 =>
      placeLoop size g1 [⟨fw, fc, startR, startC, .across⟩] rest

/-! ### Word-search provider (`src/providers/wordsearch.py`) -/

/-- The module-level `DIRECTIONS` list. -/
def DIRECTIONS : List (Int × Int) :=
  [(0, 1), (1, 0), (0, -1), (-1, 0), (1, 1), (-1, -1), (1, -1), (-1, 1)]

/-- One random trial of `_place_word`: a direction from the shuffled
`DIRECTIONS` and the origin drawn by `random.randint(0, size - 1)` twice. -/
structure WSTrial where
  dr : Int
  dc : Int
  r : Nat
  c : Nat
deriving DecidableEq, Repr

/-- The origin and direction at which a word-search word was written.
The Python result keeps only the word; the coordinates are an observation of
the grid mutation performed by `_place_word` and alter nothing. -/
structure WSRecord where
  word : Word
  r : Nat
  c : Nat
  dr : Int
  dc : Int
deriving DecidableEq, Repr

/-- `WordSearchStoryProvider._place_word`.  The realized random trial
sequence (shuffled directions, 50 origins each) is the input `trials`. -/
def placeWordWS (size : Nat) (g : Grid) (w : Word) :
    List WSTrial → Except Unit (Option WSRecord × Grid)
  | [] => .ok (none, g)
  | t :: rest =>
    let endR := (t.r : Int) + t.dr * ((w.length : Int) - 1)
    let endC := (t.c : Int) + t.dc * ((w.length : Int) - 1)
    if ¬ (0 ≤ endR ∧ endR < (size : Int) ∧ 0 ≤ endC ∧ endC < (size : Int)) then
      placeWordWS size g w rest
    else
      (checkCells g (t.r : Int) (t.c : Int) t.dr t.dc w 0).bind fun ok =>
        if ok then
          (writeCells g (t.r : Int) (t.c : Int) t.dr t.dc w 0).bind fun g2 =>
            .ok (some ⟨w, t.r, t.c, t.dr, t.dc⟩, g2)
        else placeWordWS size g w rest

/-- The `for word in words` loop of `WordSearchStoryProvider._generate`;
`trials idx` is the random trial sequence available to the `idx`-th word. -/
def wsLoop (size : Nat) (trials : Nat → List WSTrial) :
    Grid → List WSRecord → Nat → List Word → Except Unit (Grid × List WSRecord)
  | g, recs, _, [] => .ok (g, recs)
  | g, recs, idx, w :: rest =>
    (placeWordWS size g w (trials idx)).bind fun res =>
      match res with
      | (some rcd, g2) => wsLoop size trials g2 (recs ++ [rcd]) (idx + 1) rest
      | (none, g2) => wsLoop size trials g2 recs (idx + 1) rest

/-- Noise fill of one row (`if grid[r][c] == "": grid[r][c] = chr(...)`);
`noise r c` is the letter `chr(random.randint(65, 90))` drawn for cell `(r, c)`. -/
def fillRowNoise (noise : Nat → Nat → Char) (r : Nat) : List Cell → Nat → List Cell
  | [], _ => []
  | none :: rest, c => some (noise r c) :: fillRowNoise noise r rest (c + 1)
  | some ch :: rest, c => some ch :: fillRowNoise noise r rest (c + 1)

/-- Noise fill of the remaining rows. -/
def fillNoiseAux (noise : Nat → Nat → Char) : List (List Cell) → Nat → List (List Cell)
  | [], _ => []
  | row :: rows, r => fillRowNoise noise r row 0 :: fillNoiseAux noise rows (r + 1)

/-- The terminal noise fill of `WordSearchStoryProvider._generate`
(lines 94-98): every still-empty cell receives a random letter. -/
def fillNoise (g : Grid) (noise : Nat → Nat → Char) : Grid :=
  fillNoiseAux noise g 0

/-- `WordSearchStoryProvider._generate`, from the `words[: self.num_words]`
slice on.  The preceding theme choice and shuffle are modelled by taking the
resulting word list as input; `trials` and `noise` are the realized values of
the remaining random draws. -/
def wordSearchGenerate (size numWords : Nat) (words : List Word)
    (trials : Nat → List WSTrial) (noise : Nat → Nat → Char) :
    Except Unit (Grid × List WSRecord) :=
  (wsLoop size trials (emptyGrid size) [] 0 (words.take numWords)).bind fun gp =>
    .ok (fillNoise gp.1 noise, gp.2)

/-! ### Decidable observations used to state counterexamples -/

/-- Placement list of a crossword generation result (empty on `IndexError`). -/
def cwPlacements (e : Except Unit (Grid × List CWPlacement)) : List CWPlacement :=
  match e with
  | .ok gp => gp.2
  | .error _ => []

/-- Final grid of a crossword generation result (empty on `IndexError`). -/
def cwGrid (e : Except Unit (Grid × List CWPlacement)) : Grid :=
  match e with
  | .ok gp => gp.1
  | .error _ => []

/-- Record list of a word-search generation result (empty on `IndexError`). -/
def wsRecords (e : Except Unit (Grid × List WSRecord)) : List WSRecord :=
  match e with
  | .ok gp => gp.2
  | .error _ => []

/-- Final grid of a word-search generation result (empty on `IndexError`). -/
def wsGrid (e : Except Unit (Grid × List WSRecord)) : Grid :=
  match e with
  | .ok gp => gp.1
  | .error _ => []

/-- Some placement has a letter cell outside `[0, size) × [0, size)`. -/
def cwOutOfBounds (size : Nat) (ps : List CWPlacement) : Bool :=
  ps.any fun p =>
    (List.range p.word.length).any fun i =>
      let rc := nomCell p i
      ¬ (0 ≤ rc.1 ∧ rc.1 < (size : Int) ∧ 0 ≤ rc.2 ∧ rc.2 < (size : Int))

/-- Two placements share a nominal letter cell but carry different letters there. -/
def pairCellsConflict (p q : CWPlacement) : Bool :=
  (List.range p.word.length).any fun i =>
    (List.range q.word.length).any fun j =>
      nomCell p i = nomCell q j ∧ p.word.get? i ≠ q.word.get? j

/-- Some pair of placements of the list conflicts at a shared nominal cell. -/
def placementsConflictExists (ps : List CWPlacement) : Bool :=
  ps.any fun p => ps.any fun q => pairCellsConflict p q

/-- The cell immediately before the origin or immediately after the last
letter of `p`, along its direction, is inside the grid and non-empty in `g`. -/
def boundaryViolated (size : Nat) (g : Grid) (p : CWPlacement) : Bool :=
  let v := dirVec p.dir
  let br := p.row - v.1
  let bc := p.col - v.2
  let ar := p.row + v.1 * (p.word.length : Int)
  let ac := p.col + v.2 * (p.word.length : Int)
  ((0 ≤ br ∧ br < (size : Int) ∧ 0 ≤ bc ∧ bc < (size : Int)) ∧
      cellAt g br.toNat bc.toNat ≠ none) ∨
  ((0 ≤ ar ∧ ar < (size : Int) ∧ 0 ≤ ac ∧ ac < (size : Int)) ∧
      cellAt g ar.toNat ac.toNat ≠ none)

/-- Some placement of the result has an occupied boundary cell in the final grid. -/
def boundaryViolationExists (size : Nat) (e : Except Unit (Grid × List CWPlacement)) : Bool :=
  (cwPlacements e).any fun p => boundaryViolated size (cwGrid e) p

/-! ### Lemmas about the Python list primitives -/

/-- Characterization of a successful index resolution. -/
theorem pyIdx_char {n : Nat} {i : Int} {k : Nat} (h : pyIdx n i = some k) :
    ((k : Int) = i ∨ (k : Int) = i + n) ∧ k < n ∧ -(n : Int) ≤ i ∧ i < (n : Int) := by
  unfold pyIdx at h
  split at h
  · rename_i h1
    injection h with h
    subst h
    omega
  · split at h
    · rename_i h1 h2
      injection h with h
      subst h
      omega
    · exact absurd h (by simp)

/-- In-range non-negative indices resolve to themselves. -/
theorem pyIdx_of_nonneg {n : Nat} {i : Int} (h0 : 0 ≤ i) (h1 : i < (n : Int)) :
    pyIdx n i = some i.toNat := by
  unfold pyIdx
  rw [if_pos ⟨h0, h1⟩]

/-- Two distinct indices resolving to the same physical position differ by `n`. -/
theorem pyIdx_inj {n : Nat} {i j : Int} {k : Nat}
    (hi : pyIdx n i = some k) (hj : pyIdx n j = some k) :
    i = j ∨ i + n = j ∨ j + n = i := by
  have ci := pyIdx_char hi
  have cj := pyIdx_char hj
  omega

theorem pyGet_ok {α : Type} {l : List α} {i : Int} {x : α} (h : pyGet l i = .ok x) :
    ∃ k, pyIdx l.length i = some k ∧ l[k]? = some x := by
  unfold pyGet at h
  split at h
  · rename_i k hk
    split at h
    · rename_i y hy
      injection h with h
      exact ⟨k, hk, h ▸ hy⟩
    · exact absurd h (by simp)
  · exact absurd h (by simp)

theorem pySet_ok {α : Type} {l : List α} {i : Int} {x : α} {l2 : List α}
    (h : pySet l i x = .ok l2) :
    ∃ k, pyIdx l.length i = some k ∧ l2 = l.set k x := by
  unfold pySet at h
  split at h
  · rename_i k hk
    injection h with h
    exact ⟨k, hk, h.symm⟩
  · exact absurd h (by simp)

/-! ### Grid well-formedness and pointwise descriptions -/

/-- The grid is a `size × size` matrix, as built by `_generate`. -/
def GridWF (size : Nat) (g : Grid) : Prop :=
  g.length = size ∧ ∀ row ∈ g, row.length = size

theorem emptyGrid_wf (size : Nat) : GridWF size (emptyGrid size) := by
  constructor
  · simp [emptyGrid]
  · intro row hrow
    simp [emptyGrid] at hrow
    simp [hrow]

theorem cellAt_emptyGrid (size : Nat) (a b : Nat) : cellAt (emptyGrid size) a b = none := by
  unfold cellAt emptyGrid
  rcases h : (List.replicate size (List.replicate size (none : Cell)))[a]? with _ | row
  · simp
  · have hrow : row = List.replicate size none :=
      List.eq_of_mem_replicate (List.getElem?_mem h)
    subst hrow
    rcases h2 : (List.replicate size (none : Cell))[b]? with _ | v
    · simp
    · have : v = none := List.eq_of_mem_replicate (List.getElem?_mem h2)
      simp [h2, this]

/-- Splitting a successful monadic bind in `Except`. -/
theorem bind_ok {α β : Type} {e : Except Unit α} {f : α → Except Unit β} {b : β}
    (h : e.bind f = .ok b) : ∃ a, e = .ok a ∧ f a = .ok b := by
  cases e with
  | error u => simp [Except.bind] at h
  | ok a => exact ⟨a, rfl, by simpa [Except.bind] using h⟩

theorem gridSet_ok {size : Nat} {g : Grid} {r c : Int} {ch : Char} {g2 : Grid}
    (wf : GridWF size g) (h : gridSet g r c ch = .ok g2) :
    ∃ a b, pyIdx size r = some a ∧ pyIdx size c = some b ∧ GridWF size g2 ∧
      ∀ x y, cellAt g2 x y = if x = a ∧ y = b then some ch else cellAt g x y := by
  unfold gridSet at h
  obtain ⟨row, hrow, h1⟩ := bind_ok h
  obtain ⟨row2, hrow2, h2⟩ := bind_ok h1
  obtain ⟨a, ha, hga⟩ := pyGet_ok hrow
  obtain ⟨b, hb, hrow2eq⟩ := pySet_ok hrow2
  obtain ⟨a2, ha2, hg2⟩ := pySet_ok h2
  have hrl : row.length = size := wf.2 row (List.getElem?_mem hga)
  have hgl : g.length = size := wf.1
  rw [hgl] at ha ha2
  rw [hrl] at hb
  have haa : a2 = a := by rw [ha] at ha2; injection ha2 with hh; omega
  rw [haa] at hg2
  have halt : a < size := (pyIdx_char ha).2.1
  have hblt : b < size := (pyIdx_char hb).2.1
  refine ⟨a, b, ha, hb, ⟨?_, ?_⟩, ?_⟩
  · rw [hg2, List.length_set, hgl]
  · intro rw2 hmem
    rw [hg2] at hmem
    rcases List.mem_or_eq_of_mem_set hmem with hin | heq
    · exact wf.2 _ hin
    · rw [heq, hrow2eq, List.length_set]
      exact hrl
  · intro x y
    by_cases hx : x = a
    · subst hx
      have hg2a : g2[x]? = some row2 := by
        rw [hg2]
        exact List.getElem?_set_eq_of_lt _ (by omega)
      by_cases hy : y = b
      · subst hy
        have hr2y : row2[y]? = some (some ch) := by
          rw [hrow2eq]
          exact List.getElem?_set_eq_of_lt _ (by omega)
        simp [cellAt, hg2a, hr2y]
      · have hry : row2[y]? = row[y]? := by
          rw [hrow2eq]
          exact List.getElem?_set_ne (Ne.symm hy)
      
        simp [cellAt, hg2a, hry, hga, hy]
    · have hg2x : g2[x]? = g[x]? := by
        rw [hg2]
        exact List.getElem?_set_ne (Ne.symm hx)
      simp [cellAt, hg2x, hx]

theorem physPos_eq_some {size : Nat} {r c : Int} {a b : Nat} :
    physPos size r c = some (a, b) ↔ pyIdx size r = some a ∧ pyIdx size c = some b := by
  unfold physPos
  rcases h1 : pyIdx size r with _ | a2 <;> rcases h2 : pyIdx size c with _ | b2 <;>
    simp [h1, h2, and_comm]

theorem physPos_isSome {size : Nat} {r c : Int} :
    (physPos size r c).isSome ↔ (pyIdx size r).isSome ∧ (pyIdx size c).isSome := by
  unfold physPos
  rcases h1 : pyIdx size r with _ | a2 <;> rcases h2 : pyIdx size c with _ | b2 <;> simp

theorem gridGet_ok {size : Nat} {g : Grid} {r c : Int} {v : Cell}
    (wf : GridWF size g) (h : gridGet g r c = .ok v) :
    ∃ a b, physPos size r c = some (a, b) ∧ cellAt g a b = v := by
  unfold gridGet at h
  obtain ⟨row, hrow, h1⟩ := bind_ok h
  obtain ⟨a, ha, hga⟩ := pyGet_ok hrow
  obtain ⟨b, hb, hgb⟩ := pyGet_ok h1
  rw [wf.1] at ha
  rw [wf.2 row (List.getElem?_mem hga)] at hb
  refine ⟨a, b, physPos_eq_some.mpr ⟨ha, hb⟩, ?_⟩
  simp [cellAt, hga, hgb]

theorem writeCells_wf {size : Nat} {g : Grid} {r c dr dc : Int} {w : Word} {i0 : Int}
    {g2 : Grid} (wf : GridWF size g) (h : writeCells g r c dr dc w i0 = .ok g2) :
    GridWF size g2 := by
  induction w generalizing g i0 with
  | nil =>
    unfold writeCells at h
    injection h with h
    exact h ▸ wf
  | cons ch rest ih =>
    unfold writeCells at h
    obtain ⟨gm, hgm, h1⟩ := bind_ok h
    obtain ⟨a, b, _, _, wfm, _⟩ := gridSet_ok wf hgm
    exact ih wfm h1

theorem writeCells_phys {size : Nat} {g : Grid} {r c dr dc : Int} {w : Word} {i0 : Int}
    {g2 : Grid} (wf : GridWF size g) (h : writeCells g r c dr dc w i0 = .ok g2) :
    ∀ k : Nat, k < w.length →
      (physPos size (r + dr * (i0 + k)) (c + dc * (i0 + k))).isSome := by
  induction w generalizing g i0 with
  | nil => intro k hk; simp at hk
  | cons ch rest ih =>
    intro k hk
    unfold writeCells at h
    obtain ⟨gm, hgm, h1⟩ := bind_ok h
    obtain ⟨a, b, ha, hb, wfm, _⟩ := gridSet_ok wf hgm
    cases k with
    | zero =>
      have e : i0 + ((0 : Nat) : Int) = i0 := by simp
      rw [e]
      exact physPos_isSome.mpr ⟨ha ▸ rfl, hb ▸ rfl⟩
    | succ k2 =>
      have e : i0 + ((k2 + 1 : Nat) : Int) = (i0 + 1) + (k2 : Int) := by push_cast; ring
      rw [e]
      exact ih wfm h1 k2 (by simpa using hk)

theorem writeCells_frame {size : Nat} {g : Grid} {r c dr dc : Int} {w : Word} {i0 : Int}
    {g2 : Grid} (wf : GridWF size g) (h : writeCells g r c dr dc w i0 = .ok g2)
    (x y : Nat)
    (hun : ∀ k : Nat, k < w.length →
      physPos size (r + dr * (i0 + k)) (c + dc * (i0 + k)) ≠ some (x, y)) :
    cellAt g2 x y = cellAt g x y := by
  induction w generalizing g i0 with
  | nil =>
    unfold writeCells at h
    injection h with h
    rw [h]
  | cons ch rest ih =>
    unfold writeCells at h
    obtain ⟨gm, hgm, h1⟩ := bind_ok h
    obtain ⟨a, b, ha, hb, wfm, hcell⟩ := gridSet_ok wf hgm
    have hne : ¬ (x = a ∧ y = b) := by
      intro hc
      apply hun 0 (by simp)
      have e : i0 + ((0 : Nat) : Int) = i0 := by simp
      rw [e]
      rw [physPos_eq_some]
      exact ⟨hc.1 ▸ ha, hc.2 ▸ hb⟩
    have step : cellAt gm x y = cellAt g x y := by rw [hcell x y, if_neg hne]
    rw [← step]
    apply ih wfm h1
    intro k hk
    have e : i0 + 1 + (k : Int) = i0 + ((k + 1 : Nat) : Int) := by push_cast; ring
    rw [e]
    exact hun (k + 1) (by simpa using hk)

theorem writeCells_letters {size : Nat} {g : Grid} {r c dr dc : Int} {w : Word} {i0 : Int}
    {g2 : Grid} (wf : GridWF size g) (h : writeCells g r c dr dc w i0 = .ok g2)
    (hdist : ∀ k1 k2 : Nat, k1 < w.length → k2 < w.length →
      (physPos size (r + dr * (i0 + k1)) (c + dc * (i0 + k1))).isSome →
      physPos size (r + dr * (i0 + k1)) (c + dc * (i0 + k1)) =
        physPos size (r + dr * (i0 + k2)) (c + dc * (i0 + k2)) → k1 = k2) :
    ∀ k : Nat, ∀ ch : Char, w.get? k = some ch →
      ∃ a b, physPos size (r + dr * (i0 + k)) (c + dc * (i0 + k)) = some (a, b) ∧
        cellAt g2 a b = some ch := by
  induction w generalizing g i0 with
  | nil => intro k ch hk; simp at hk
  | cons ch0 rest ih =>
    intro k ch hk
    unfold writeCells at h
    obtain ⟨gm, hgm, h1⟩ := bind_ok h
    obtain ⟨a, b, ha, hb, wfm, hcell⟩ := gridSet_ok wf hgm
    cases k with
    | zero =>
      have hch : ch = ch0 := by
        simp at hk
        exact hk.symm
      subst hch
      have e : i0 + ((0 : Nat) : Int) = i0 := by simp
      rw [e]
      refine ⟨a, b, physPos_eq_some.mpr ⟨ha, hb⟩, ?_⟩
      have hframe : cellAt g2 a b = cellAt gm a b := by
        apply writeCells_frame wfm h1
        intro k2 hk2 hcontra
        have e2 : i0 + 1 + (k2 : Int) = i0 + ((k2 + 1 : Nat) : Int) := by push_cast; ring
        rw [e2] at hcontra
        have : k2 + 1 = 0 := by
          apply hdist (k2 + 1) 0 (by simpa using hk2) (by simp) (by rw [hcontra]; rfl)
          rw [hcontra, e]
          exact (physPos_eq_some.mpr ⟨ha, hb⟩).symm
        omega
      rw [hframe, hcell a b, if_pos ⟨rfl, rfl⟩]
    | succ k2 =>
      have hk2 : rest.get? k2 = some ch := by simpa using hk
      have e : i0 + ((k2 + 1 : Nat) : Int) = (i0 + 1) + (k2 : Int) := by push_cast; ring
      rw [e]
      apply ih wfm h1 ?_ k2 ch hk2
      intro k3 k4 hk3 hk4 hsome heq
      have e3 : i0 + 1 + (k3 : Int) = i0 + ((k3 + 1 : Nat) : Int) := by push_cast; ring
      have e4 : i0 + 1 + (k4 : Int) = i0 + ((k4 + 1 : Nat) : Int) := by push_cast; ring
      rw [e3] at hsome
      rw [e3, e4] at heq
      have := hdist (k3 + 1) (k4 + 1) (by simpa using hk3) (by simpa using hk4) hsome heq
      omega

theorem checkCells_ok {size : Nat} {g : Grid} {r c dr dc : Int} {w : Word} {i0 : Int}
    (wf : GridWF size g) (h : checkCells g r c dr dc w i0 = .ok true) :
    ∀ k : Nat, ∀ ch : Char, w.get? k = some ch →
      ∃ a b, physPos size (r + dr * (i0 + k)) (c + dc * (i0 + k)) = some (a, b) ∧
        (cellAt g a b = none ∨ cellAt g a b = some ch) := by
  induction w generalizing i0 with
  | nil => intro k ch hk; simp at hk
  | cons ch0 rest ih =>
    intro k ch hk
    unfold checkCells at h
    obtain ⟨existing, hex, h1⟩ := bind_ok h
    obtain ⟨a, b, hpp, hcell⟩ := gridGet_ok wf hex
    cases k with
    | zero =>
      have hch : ch = ch0 := by simp at hk; exact hk.symm
      subst hch
      have e : i0 + ((0 : Nat) : Int) = i0 := by simp
      rw [e]
      refine ⟨a, b, hpp, ?_⟩
      by_cases hcond : existing ≠ none ∧ existing ≠ some ch
      · rw [if_pos hcond] at h1
        exact absurd h1 (by simp)
      · push_neg at hcond
        rcases Decidable.em (existing = none) with he | he
        · exact Or.inl (he ▸ hcell)
        · exact Or.inr ((hcond he) ▸ hcell)
    | succ k2 =>
      have hk2 : rest.get? k2 = some ch := by simpa using hk
      have e : i0 + ((k2 + 1 : Nat) : Int) = (i0 + 1) + (k2 : Int) := by push_cast; ring
      rw [e]
      have hrec : checkCells g r c dr dc rest (i0 + 1) = .ok true := by
        by_cases hcond : existing ≠ none ∧ existing ≠ some ch0
        · rw [if_pos hcond] at h1
          exact absurd h1 (by simp)
        · rwa [if_neg hcond] at h1
      exact ih hrec k2 ch hk2

/-- Along an across or down direction, two letter indices of a word no longer
than the grid that resolve to the same physical cell are equal. -/
theorem cells_phys_distinct {size : Nat} {r c dr dc : Int} {w : Word} {i0 : Int}
    (hdir : (dr, dc) = ((0 : Int), (1 : Int)) ∨ (dr, dc) = ((1 : Int), (0 : Int)))
    (hlen : w.length ≤ size) :
    ∀ k1 k2 : Nat, k1 < w.length → k2 < w.length →
      (physPos size (r + dr * (i0 + k1)) (c + dc * (i0 + k1))).isSome →
      physPos size (r + dr * (i0 + k1)) (c + dc * (i0 + k1)) =
        physPos size (r + dr * (i0 + k2)) (c + dc * (i0 + k2)) → k1 = k2 := by
  intro k1 k2 hk1 hk2 hsome heq
  rcases hp : physPos size (r + dr * (i0 + k1)) (c + dc * (i0 + k1)) with _ | ab
  · rw [hp] at hsome; simp at hsome
  · obtain ⟨a, b⟩ := ab
    have hp2 : physPos size (r + dr * (i0 + (k2 : Nat))) (c + dc * (i0 + (k2 : Nat))) =
        some (a, b) := by rw [← heq, hp]
    obtain ⟨hr1, hc1⟩ := physPos_eq_some.mp hp
    obtain ⟨hr2, hc2⟩ := physPos_eq_some.mp hp2
    rcases hdir with h | h
    · have hdr : dr = 0 := congrArg Prod.fst h
      have hdc : dc = 1 := congrArg Prod.snd h
      subst hdr hdc
      have c1 := pyIdx_char hc1
      have c2 := pyIdx_char hc2
      omega
    · have hdr : dr = 1 := congrArg Prod.fst h
      have hdc : dc = 0 := congrArg Prod.snd h
      subst hdr hdc
      have c1 := pyIdx_char hr1
      have c2 := pyIdx_char hr2
      omega

theorem tryPlace_ok {size : Nat} {g : Grid} {w : Word} {r c dr dc : Int}
    (h : tryPlace size g w r c dr dc = .ok true) :
    (0 ≤ r + dr * ((w.length : Int) - 1) ∧ r + dr * ((w.length : Int) - 1) < (size : Int) ∧
      0 ≤ c + dc * ((w.length : Int) - 1) ∧ c + dc * ((w.length : Int) - 1) < (size : Int)) ∧
    checkCells g r c dr dc w 0 = .ok true ∧
    ((0 ≤ r - dr ∧ r - dr < (size : Int) ∧ 0 ≤ c - dc ∧ c - dc < (size : Int)) →
      cellAt g (r - dr).toNat (c - dc).toNat = none) ∧
    ((0 ≤ r + dr * (w.length : Int) ∧ r + dr * (w.length : Int) < (size : Int) ∧
      0 ≤ c + dc * (w.length : Int) ∧ c + dc * (w.length : Int) < (size : Int)) →
      cellAt g (r + dr * (w.length : Int)).toNat (c + dc * (w.length : Int)).toNat = none) := by
  unfold tryPlace at h
  dsimp only at h
  split at h
  · exact absurd h (by simp)
  · rename_i hbounds
    rw [not_not] at hbounds
    obtain ⟨ok1, hchk, h2⟩ := bind_ok h
    cases ok1 with
    | false => rw [if_pos (by simp)] at h2; exact absurd h2 (by simp)
    | true =>
      rw [if_neg (by simp)] at h2
      split at h2
      · exact absurd h2 (by simp)
      · rename_i hbefore
        split at h2
        · exact absurd h2 (by simp)
        · rename_i hafter
          refine ⟨hbounds, hchk, ?_, ?_⟩
          · intro hinb
            by_contra hc
            exact hbefore ⟨hinb, hc⟩
          · intro hinb
            by_contra hc
            exact hafter ⟨hinb, hc⟩

theorem scanNewLetters_ok {size : Nat} {g : Grid} {w : Word} {chP : Char}
    {ar ac ndr ndc : Int} {suffix : Word} {j0 : Int} {wr wc : Int}
    (h : scanNewLetters size g w chP ar ac ndr ndc suffix j0 = .ok (some (wr, wc))) :
    ∃ k : Nat, ∃ chN, suffix.get? k = some chN ∧ chP = chN ∧
      wr = ar - ndr * (j0 + k) ∧ wc = ac - ndc * (j0 + k) ∧
      tryPlace size g w wr wc ndr ndc = .ok true := by
  induction suffix generalizing j0 with
  | nil => unfold scanNewLetters at h; exact absurd h (by simp)
  | cons chN rest ih =>
    unfold scanNewLetters at h
    by_cases he : chP = chN
    · rw [if_pos he] at h
      obtain ⟨ok1, htp, h2⟩ := bind_ok h
      cases ok1 with
      | false =>
        rw [if_neg (by simp)] at h2
        obtain ⟨k, chN2, hk, hch, hwr, hwc, htp2⟩ := ih h2
        refine ⟨k + 1, chN2, by simpa using hk, hch, ?_, ?_, htp2⟩
        · rw [hwr]; push_cast; ring
        · rw [hwc]; push_cast; ring
      | true =>
        rw [if_pos rfl] at h2
        injection h2 with h2
        injection h2 with h2
        have hwr : wr = ar - ndr * j0 := (congrArg Prod.fst h2).symm
        have hwc : wc = ac - ndc * j0 := (congrArg Prod.snd h2).symm
        refine ⟨0, chN, by simp, he, ?_, ?_, ?_⟩
        · rw [hwr]; simp
        · rw [hwc]; simp
        · rw [hwr, hwc]
          exact htp
    · rw [if_neg he] at h
      obtain ⟨k, chN2, hk, hch, hwr, hwc, htp2⟩ := ih h
      refine ⟨k + 1, chN2, by simpa using hk, hch, ?_, ?_, htp2⟩
      · rw [hwr]; push_cast; ring
      · rw [hwc]; push_cast; ring

theorem scanAnchorLetters_ok {size : Nat} {g : Grid} {w : Word}
    {pr pc pdr pdc ndr ndc : Int} {suffixP : Word} {i0 : Int} {wr wc : Int}
    (h : scanAnchorLetters size g w pr pc pdr pdc ndr ndc suffixP i0 = .ok (some (wr, wc))) :
    ∃ i j : Nat, ∃ chA, suffixP.get? i = some chA ∧ w.get? j = some chA ∧
      wr = (pr + pdr * (i0 + i)) - ndr * j ∧ wc = (pc + pdc * (i0 + i)) - ndc * j ∧
      tryPlace size g w wr wc ndr ndc = .ok true := by
  induction suffixP generalizing i0 with
  | nil => unfold scanAnchorLetters at h; exact absurd h (by simp)
  | cons chP restP ih =>
    unfold scanAnchorLetters at h
    obtain ⟨res, hres, h2⟩ := bind_ok h
    cases res with
    | some x =>
      injection h2 with h2
      injection h2 with h2
      rw [h2] at hres
      obtain ⟨k, chN, hk, hch, hwr, hwc, htp⟩ := scanNewLetters_ok hres
      refine ⟨0, k, chP, by simp, hch ▸ hk, ?_, ?_, htp⟩
      · rw [hwr]; push_cast; ring
      · rw [hwc]; push_cast; ring
    | none =>
      obtain ⟨i, j, chA, hi, hj, hwr, hwc, htp⟩ := ih h2
      refine ⟨i + 1, j, chA, by simpa using hi, hj, ?_, ?_, htp⟩
      · rw [hwr]; push_cast; ring
      · rw [hwc]; push_cast; ring

theorem scanPlaced_ok {size : Nat} {g : Grid} {w : Word} {placed : List CWPlacement}
    {wr wc : Int} {nd : CWDir} {ndr ndc : Int}
    (h : scanPlaced size g w placed = .ok (some (wr, wc, nd, ndr, ndc))) :
    ∃ p, p ∈ placed ∧ nd = perpDir p.dir ∧ (ndr, ndc) = dirVec (perpDir p.dir) ∧
      ∃ i j : Nat, ∃ chA, p.word.get? i = some chA ∧ w.get? j = some chA ∧
        wr = (p.row + (dirVec p.dir).1 * i) - ndr * j ∧
        wc = (p.col + (dirVec p.dir).2 * i) - ndc * j ∧
        tryPlace size g w wr wc ndr ndc = .ok true := by
  induction placed with
  | nil => unfold scanPlaced at h; exact absurd h (by simp)
  | cons p rest ih =>
    unfold scanPlaced at h
    obtain ⟨res, hres, h2⟩ := bind_ok h
    cases res with
    | some x =>
      rcases x with ⟨x1, x2⟩
      injection h2 with h2
      injection h2 with h2
      have hx1 : x1 = wr := congrArg (fun t => t.1) h2
      have hx2 : x2 = wc := congrArg (fun t => t.2.1) h2
      have hnd : perpDir p.dir = nd := congrArg (fun t => t.2.2.1) h2
      have hndr : (dirVec (perpDir p.dir)).1 = ndr := congrArg (fun t => t.2.2.2.1) h2
      have hndc : (dirVec (perpDir p.dir)).2 = ndc := congrArg (fun t => t.2.2.2.2) h2
      rw [hx1, hx2] at hres
      obtain ⟨i, j, chA, hi, hj, hwr, hwc, htp⟩ := scanAnchorLetters_ok hres
      refine ⟨p, List.mem_cons_self p rest, hnd.symm, ?_, i, j, chA, hi, hj, ?_, ?_, ?_⟩
      · rw [← hndr, ← hndc]
      · rw [hwr, ← hndr]; push_cast; ring
      · rw [hwc, ← hndc]; push_cast; ring
      · rw [← hndr, ← hndc]
        exact htp
    | none =>
      obtain ⟨p2, hp2, rest2⟩ := ih h2
      exact ⟨p2, List.mem_cons_of_mem p hp2, rest2⟩

theorem physPos_congr {size : Nat} {r1 c1 r2 c2 : Int} (hr : r1 = r2) (hc : c1 = c2) :
    physPos size r1 c1 = physPos size r2 c2 := by rw [hr, hc]

theorem placeLoop_prefix {size : Nat} {g : Grid} {placed : List CWPlacement}
    {rest : List (Word × String)} {g2 : Grid} {placed2 : List CWPlacement}
    (h : placeLoop size g placed rest = .ok (g2, placed2)) :
    ∃ suffix, placed2 = placed ++ suffix := by
  induction rest generalizing g placed with
  | nil =>
    unfold placeLoop at h
    injection h with h
    cases h
    exact ⟨[], by simp⟩
  | cons wcl rest ih =>
    rcases wcl with ⟨w, cl⟩
    unfold placeLoop at h
    obtain ⟨best, hbest, h2⟩ := bind_ok h
    cases best with
    | none =>
      exact ih h2
    | some x =>
      rcases x with ⟨wr, wc, nd, ndr, ndc⟩
      obtain ⟨g3, hw, h3⟩ := bind_ok h2
      obtain ⟨suffix, hs⟩ := ih h3
      exact ⟨⟨w, cl, wr, wc, nd⟩ :: suffix, by simpa using hs⟩

theorem placeLoop_wf {size : Nat} {g : Grid} {placed : List CWPlacement}
    {rest : List (Word × String)} {g2 : Grid} {placed2 : List CWPlacement}
    (wf : GridWF size g) (h : placeLoop size g placed rest = .ok (g2, placed2)) :
    GridWF size g2 := by
  induction rest generalizing g placed with
  | nil =>
    unfold placeLoop at h
    injection h with h
    cases h
    exact wf
  | cons wcl rest ih =>
    rcases wcl with ⟨w, cl⟩
    unfold placeLoop at h
    obtain ⟨best, hbest, h2⟩ := bind_ok h
    cases best with
    | none => exact ih wf h2
    | some x =>
      rcases x with ⟨wr, wc, nd, ndr, ndc⟩
      obtain ⟨g3, hw, h3⟩ := bind_ok h2
      exact ih (writeCells_wf wf hw) h3

/-- Every letter cell of every placement resolves to a physical grid position
(its coordinates lie in `[-size, size)`, the range Python indexing accepts). -/
def CellsInRange (size : Nat) (placed : List CWPlacement) : Prop :=
  ∀ p ∈ placed, ∀ k : Nat, k < p.word.length →
    (physPos size (nomCell p k).1 (nomCell p k).2).isSome

theorem placeLoop_inRange {size : Nat} {g : Grid} {placed : List CWPlacement}
    {rest : List (Word × String)} {g2 : Grid} {placed2 : List CWPlacement}
    (wf : GridWF size g) (hc : CellsInRange size placed)
    (h : placeLoop size g placed rest = .ok (g2, placed2)) :
    CellsInRange size placed2 := by
  induction rest generalizing g placed with
  | nil =>
    unfold placeLoop at h
    injection h with h
    cases h
    exact hc
  | cons wcl rest ih =>
    rcases wcl with ⟨w, cl⟩
    unfold placeLoop at h
    obtain ⟨best, hbest, h2⟩ := bind_ok h
    cases best with
    | none => exact ih wf hc h2
    | some x =>
      rcases x with ⟨wr, wc, nd, ndr, ndc⟩
      obtain ⟨g3, hw, h3⟩ := bind_ok h2
      obtain ⟨p0, hp0, hnd, hvec, _⟩ := scanPlaced_ok hbest
      apply ih (writeCells_wf wf hw) ?_ h3
      intro p hp k hk
      rcases List.mem_append.mp hp with hold | hnew
      · exact hc p hold k hk
      · have hpq : p = ⟨w, cl, wr, wc, nd⟩ := by simpa using hnew
        subst hpq
        have := writeCells_phys wf hw k hk
        have e1 : wr + ndr * (0 + (k : Int)) = wr + ndr * k := by ring
        have e2 : wc + ndc * (0 + (k : Int)) = wc + ndc * k := by ring
        rw [physPos_congr e1 e2] at this
        have hv : dirVec nd = (ndr, ndc) := by rw [hnd, ← hvec]
        have hv1 : (dirVec nd).1 = ndr := by rw [hv]
        have hv2 : (dirVec nd).2 = ndc := by rw [hv]
        unfold nomCell
        dsimp only
        rw [physPos_congr (by rw [hv1]) (by rw [hv2])]
        exact this

/-- Every letter of every placement is present on the grid at the physical
position its nominal cell resolves to. -/
def LettersOnGrid (size : Nat) (g : Grid) (placed : List CWPlacement) : Prop :=
  ∀ p ∈ placed, ∀ k : Nat, ∀ ch : Char, p.word.get? k = some ch →
    ∃ a b, physPos size (nomCell p k).1 (nomCell p k).2 = some (a, b) ∧
      cellAt g a b = some ch

theorem placeLoop_letters {size : Nat} {g : Grid} {placed : List CWPlacement}
    {rest : List (Word × String)} {g2 : Grid} {placed2 : List CWPlacement}
    (wf : GridWF size g) (hl : LettersOnGrid size g placed)
    (hlen : ∀ wcl ∈ rest, wcl.1.length ≤ size)
    (h : placeLoop size g placed rest = .ok (g2, placed2)) :
    LettersOnGrid size g2 placed2 := by
  induction rest generalizing g placed with
  | nil =>
    unfold placeLoop at h
    injection h with h
    cases h
    exact hl
  | cons wcl rest ih =>
    rcases wcl with ⟨w, cl⟩
    unfold placeLoop at h
    obtain ⟨best, hbest, h2⟩ := bind_ok h
    cases best with
    | none => exact ih wf hl (fun x hx => hlen x (List.mem_cons_of_mem _ hx)) h2
    | some x =>
      rcases x with ⟨wr, wc, nd, ndr, ndc⟩
      obtain ⟨g3, hw, h3⟩ := bind_ok h2
      obtain ⟨p0, hp0, hnd, hvec, _, _, _, _, _, _, _, htp⟩ := scanPlaced_ok hbest
      have hwlen : w.length ≤ size := hlen (w, cl) (List.mem_cons_self _ _)
      have hdirvec : (ndr, ndc) = ((0 : Int), (1 : Int)) ∨ (ndr, ndc) = ((1 : Int), (0 : Int)) := by
        cases hpd : perpDir p0.dir
        · left; rw [hvec, hpd]; rfl
        · right; rw [hvec, hpd]; rfl
      have hdist := @cells_phys_distinct size wr wc ndr ndc w 0 hdirvec hwlen
      have hchk := (tryPlace_ok htp).2.1
      apply ih (writeCells_wf wf hw) ?_ (fun x hx => hlen x (List.mem_cons_of_mem _ hx)) h3
      intro p hp k ch hk
      rcases List.mem_append.mp hp with hold | hnew
      · obtain ⟨a, b, hphys, hcell⟩ := hl p hold k ch hk
        by_cases hcov : ∃ k2 : Nat, ∃ ch2 : Char, w.get? k2 = some ch2 ∧
            physPos size (wr + ndr * (0 + (k2 : Int))) (wc + ndc * (0 + (k2 : Int))) = some (a, b)
        · obtain ⟨k2, ch2, hk2, hph2⟩ := hcov
          obtain ⟨a2, b2, hph2b, hdisj⟩ := checkCells_ok wf hchk k2 ch2 hk2
          rw [hph2] at hph2b
          injection hph2b.symm with hab
          have ha2 : a2 = a := congrArg Prod.fst hab
          have hb2 : b2 = b := congrArg Prod.snd hab
          rw [ha2, hb2] at hdisj
          have hch2 : ch2 = ch := by
            rcases hdisj with hno | hyes
            · rw [hno] at hcell; exact absurd hcell (by simp)
            · rw [hyes] at hcell; injection hcell
          obtain ⟨a3, b3, hph3, hcell3⟩ := writeCells_letters wf hw hdist k2 ch2 hk2
          rw [hph2] at hph3
          injection hph3.symm with hab3
          have ha3 : a3 = a := congrArg Prod.fst hab3
          have hb3 : b3 = b := congrArg Prod.snd hab3
          rw [ha3, hb3] at hcell3
          exact ⟨a, b, hphys, by rw [hcell3, hch2]⟩
        · have hframe : cellAt g3 a b = cellAt g a b := by
            apply writeCells_frame wf hw
            intro k2 hk2 hcontra
            exact hcov ⟨k2, w.get ⟨k2, hk2⟩, List.get?_eq_get hk2, hcontra⟩
          exact ⟨a, b, hphys, hframe ▸ hcell⟩
      · have hpq : p = ⟨w, cl, wr, wc, nd⟩ := by simpa using hnew
        subst hpq
        obtain ⟨a, b, hph, hc2⟩ := writeCells_letters wf hw hdist k ch hk
        refine ⟨a, b, ?_, hc2⟩
        have hv : dirVec nd = (ndr, ndc) := by rw [hnd, ← hvec]
        rw [← hph]
        apply physPos_congr
        · unfold nomCell
          dsimp only
          rw [hv]
          ring
        · unfold nomCell
          dsimp only
          rw [hv]
          ring

/-- Every placement after the first crosses some earlier placement: they share
a nominal cell carrying the same letter, and their orientations are
perpendicular. -/
def Anchored (placed : List CWPlacement) : Prop :=
  ∀ n : Nat, 1 ≤ n → ∀ p, placed.get? n = some p →
    ∃ m, m < n ∧ ∃ q, placed.get? m = some q ∧ p.dir = perpDir q.dir ∧
      ∃ i j : Nat, ∃ chA, q.word.get? i = some chA ∧ p.word.get? j = some chA ∧
        nomCell q i = nomCell p j

theorem placeLoop_anchored {size : Nat} {g : Grid} {placed : List CWPlacement}
    {rest : List (Word × String)} {g2 : Grid} {placed2 : List CWPlacement}
    (ha : Anchored placed) (h : placeLoop size g placed rest = .ok (g2, placed2)) :
    Anchored placed2 := by
  induction rest generalizing g placed with
  | nil =>
    unfold placeLoop at h
    injection h with h
    cases h
    exact ha
  | cons wcl rest ih =>
    rcases wcl with ⟨w, cl⟩
    unfold placeLoop at h
    obtain ⟨best, hbest, h2⟩ := bind_ok h
    cases best with
    | none => exact ih ha h2
    | some x =>
      rcases x with ⟨wr, wc, nd, ndr, ndc⟩
      obtain ⟨g3, hw, h3⟩ := bind_ok h2
      obtain ⟨p0, hp0, hnd, hvec, i, j, chA, hi, hj, hwr, hwc, htp⟩ := scanPlaced_ok hbest
      apply ih ?_ h3
      intro n hn p hget
      rcases Nat.lt_trichotomy n placed.length with hlt | heq | hgt
      · rw [List.get?_append hlt] at hget
        obtain ⟨m, hm, q, hq, hrest⟩ := ha n hn p hget
        refine ⟨m, hm, q, ?_, hrest⟩
        rw [List.get?_append (lt_trans hm hlt)]
        exact hq
      · subst heq
        rw [List.get?_concat_length] at hget
        injection hget with hget
        obtain ⟨m, hm⟩ := List.mem_iff_get?.mp hp0
        have hmlt : m < placed.length := by
          rcases List.get?_eq_some.mp hm with ⟨hlt2, _⟩
          exact hlt2
        refine ⟨m, hmlt, p0, ?_, ?_⟩
        · rw [List.get?_append hmlt]
          exact hm
        · have hv : dirVec nd = (ndr, ndc) := by rw [hnd, ← hvec]
          have hv1 : (dirVec nd).1 = ndr := by rw [hv]
          have hv2 : (dirVec nd).2 = ndc := by rw [hv]
          have hget2 : p = ⟨w, cl, wr, wc, nd⟩ := hget.symm
          subst hget2
          refine ⟨hnd, i, j, chA, hi, hj, ?_⟩
          unfold nomCell
          rw [Prod.ext_iff]
          constructor
          · show p0.row + (dirVec p0.dir).1 * (i : Int) = wr + (dirVec nd).1 * (j : Int)
            rw [hv1, hwr]
            ring
          · show p0.col + (dirVec p0.dir).2 * (i : Int) = wc + (dirVec nd).2 * (j : Int)
            rw [hv2, hwc]
            ring
      · have : (placed ++ [(⟨w, cl, wr, wc, nd⟩ : CWPlacement)]).get? n = none := by
          rw [List.get?_eq_none]
          simp
          omega
        rw [this] at hget
        exact absurd hget (by simp)

/-- `q` writes (after Python index wrapping) onto physical cell `ab`. -/
def coversPhys (size : Nat) (q : CWPlacement) (ab : Nat × Nat) : Prop :=
  ∃ k : Nat, ∃ ch, q.word.get? k = some ch ∧
    physPos size (nomCell q k).1 (nomCell q k).2 = some ab

/-- The nominal cell immediately before a placement's origin. -/
def beforeCell (p : CWPlacement) : Int × Int :=
  (p.row - (dirVec p.dir).1, p.col - (dirVec p.dir).2)

/-- The nominal cell immediately after a placement's last letter. -/
def afterCell (p : CWPlacement) : Int × Int :=
  (p.row + (dirVec p.dir).1 * (p.word.length : Int),
   p.col + (dirVec p.dir).2 * (p.word.length : Int))

/-- A boundary cell is off-grid, empty, or written by this or a later placement. -/
def bndCellOk (size : Nat) (g : Grid) (placed : List CWPlacement) (n : Nat)
    (rc : Int × Int) : Prop :=
  ¬ (0 ≤ rc.1 ∧ rc.1 < (size : Int) ∧ 0 ≤ rc.2 ∧ rc.2 < (size : Int)) ∨
  cellAt g rc.1.toNat rc.2.toNat = none ∨
  ∃ m, n ≤ m ∧ ∃ q, placed.get? m = some q ∧ coversPhys size q (rc.1.toNat, rc.2.toNat)

/-- Boundary isolation, stated against a grid state and the placement order. -/
def BoundaryOk (size : Nat) (g : Grid) (placed : List CWPlacement) : Prop :=
  ∀ n p, placed.get? n = some p →
    bndCellOk size g placed n (beforeCell p) ∧ bndCellOk size g placed n (afterCell p)

theorem placeLoop_boundary {size : Nat} {g : Grid} {placed : List CWPlacement}
    {rest : List (Word × String)} {g2 : Grid} {placed2 : List CWPlacement}
    (wf : GridWF size g) (hb : BoundaryOk size g placed)
    (h : placeLoop size g placed rest = .ok (g2, placed2)) :
    BoundaryOk size g2 placed2 := by
  induction rest generalizing g placed with
  | nil =>
    unfold placeLoop at h
    injection h with h
    cases h
    exact hb
  | cons wcl rest ih =>
    rcases wcl with ⟨w, cl⟩
    unfold placeLoop at h
    obtain ⟨best, hbest, h2⟩ := bind_ok h
    cases best with
    | none => exact ih wf hb h2
    | some x =>
      rcases x with ⟨wr, wc, nd, ndr, ndc⟩
      obtain ⟨g3, hw, h3⟩ := bind_ok h2
      obtain ⟨p0, hp0, hnd, hvec, i, j, chA, hi, hj, hwr, hwc, htp⟩ := scanPlaced_ok hbest
      have hv : dirVec nd = (ndr, ndc) := by rw [hnd, ← hvec]
      have hv1 : (dirVec nd).1 = ndr := by rw [hv]
      have hv2 : (dirVec nd).2 = ndc := by rw [hv]
      have htrans : ∀ n : Nat, ∀ rc : Int × Int, n ≤ placed.length →
          bndCellOk size g placed n rc →
          bndCellOk size g3 (placed ++ [(⟨w, cl, wr, wc, nd⟩ : CWPlacement)]) n rc := by
        intro n rc hn hok
        rcases hok with hoff | hempty | ⟨m, hnm, q2, hq2, hcov⟩
        · exact Or.inl hoff
        · by_cases hcov2 : ∃ k2 : Nat, ∃ ch2 : Char, w.get? k2 = some ch2 ∧
              physPos size (wr + ndr * (0 + (k2 : Int))) (wc + ndc * (0 + (k2 : Int))) =
                some (rc.1.toNat, rc.2.toNat)
          · right; right
            refine ⟨placed.length, hn, ⟨w, cl, wr, wc, nd⟩, List.get?_concat_length .., ?_⟩
            obtain ⟨k2, ch2, hk2, hph⟩ := hcov2
            refine ⟨k2, ch2, hk2, ?_⟩
            rw [← hph]
            apply physPos_congr
            · show wr + (dirVec nd).1 * (k2 : Int) = wr + ndr * (0 + (k2 : Int))
              rw [hv1]; ring
            · show wc + (dirVec nd).2 * (k2 : Int) = wc + ndc * (0 + (k2 : Int))
              rw [hv2]; ring
          · right; left
            have hframe : cellAt g3 rc.1.toNat rc.2.toNat = cellAt g rc.1.toNat rc.2.toNat := by
              apply writeCells_frame wf hw
              intro k2 hk2 hcontra
              exact hcov2 ⟨k2, w.get ⟨k2, hk2⟩, List.get?_eq_get hk2, hcontra⟩
            rw [hframe]
            exact hempty
        · right; right
          have hmlt : m < placed.length := by
            rcases List.get?_eq_some.mp hq2 with ⟨hlt2, _⟩
            exact hlt2
          refine ⟨m, hnm, q2, ?_, hcov⟩
          rw [List.get?_append hmlt]
          exact hq2
      apply ih (writeCells_wf wf hw) ?_ h3
      intro n p hget
      rcases Nat.lt_trichotomy n placed.length with hlt | heq | hgt
      · rw [List.get?_append hlt] at hget
        obtain ⟨hbef, haft⟩ := hb n p hget
        exact ⟨htrans n _ (le_of_lt hlt) hbef, htrans n _ (le_of_lt hlt) haft⟩
      · subst heq
        rw [List.get?_concat_length] at hget
        injection hget with hget
        have hget2 : p = ⟨w, cl, wr, wc, nd⟩ := hget.symm
        subst hget2
        have htpo := tryPlace_ok htp
        have eb1 : (beforeCell (⟨w, cl, wr, wc, nd⟩ : CWPlacement)).1 = wr - ndr := by
          show wr - (dirVec nd).1 = wr - ndr
          rw [hv1]
        have eb2 : (beforeCell (⟨w, cl, wr, wc, nd⟩ : CWPlacement)).2 = wc - ndc := by
          show wc - (dirVec nd).2 = wc - ndc
          rw [hv2]
        have ea1 : (afterCell (⟨w, cl, wr, wc, nd⟩ : CWPlacement)).1 =
            wr + ndr * (w.length : Int) := by
          show wr + (dirVec nd).1 * (w.length : Int) = wr + ndr * (w.length : Int)
          rw [hv1]
        have ea2 : (afterCell (⟨w, cl, wr, wc, nd⟩ : CWPlacement)).2 =
            wc + ndc * (w.length : Int) := by
          show wc + (dirVec nd).2 * (w.length : Int) = wc + ndc * (w.length : Int)
          rw [hv2]
        constructor
        · apply htrans _ _ (le_refl _)
          rw [bndCellOk, eb1, eb2]
          by_cases hinb : 0 ≤ wr - ndr ∧ wr - ndr < (size : Int) ∧
              0 ≤ wc - ndc ∧ wc - ndc < (size : Int)
          · right; left
            exact htpo.2.2.1 hinb
          · left
            exact hinb
        · apply htrans _ _ (le_refl _)
          rw [bndCellOk, ea1, ea2]
          by_cases hinb : 0 ≤ wr + ndr * (w.length : Int) ∧
              wr + ndr * (w.length : Int) < (size : Int) ∧
              0 ≤ wc + ndc * (w.length : Int) ∧ wc + ndc * (w.length : Int) < (size : Int)
          · right; left
            exact htpo.2.2.2 hinb
          · left
            exact hinb
      · have : (placed ++ [(⟨w, cl, wr, wc, nd⟩ : CWPlacement)]).get? n = none := by
          rw [List.get?_eq_none]
          simp
          omega
        rw [this] at hget
        exact absurd hget (by simp)

theorem crosswordGenerate_ok {size numWords : Nat} {wordClues : List (Word × String)}
    {g2 : Grid} {placed2 : List CWPlacement}
    (h : crosswordGenerate size numWords wordClues = .ok (g2, placed2)) :
    ∃ fw fc rest g1,
      sortByLenDesc (wordClues.take numWords) = (fw, fc) :: rest ∧
      writeCells (emptyGrid size) ((size / 2 : Nat) : Int)
        (Int.fdiv ((size : Int) - (fw.length : Int)) 2) 0 1 fw 0 = .ok g1 ∧
      placeLoop size g1
        [⟨fw, fc, ((size / 2 : Nat) : Int),
          Int.fdiv ((size : Int) - (fw.length : Int)) 2, CWDir.across⟩] rest =
          .ok (g2, placed2) := by
  unfold crosswordGenerate at h
  split at h
  · exact absurd h (by simp)
  · rename_i fw fc rest heq
    dsimp only at h
    obtain ⟨g1, hw, h2⟩ := bind_ok h
    exact ⟨fw, fc, rest, g1, heq, hw, h2⟩

theorem seed_inRange {size : Nat} {fw : Word} (fc : String) {g1 : Grid}
    (hw : writeCells (emptyGrid size) ((size / 2 : Nat) : Int)
      (Int.fdiv ((size : Int) - (fw.length : Int)) 2) 0 1 fw 0 = .ok g1) :
    CellsInRange size [⟨fw, fc, ((size / 2 : Nat) : Int),
      Int.fdiv ((size : Int) - (fw.length : Int)) 2, CWDir.across⟩] := by
  intro p hp k hk
  have hp2 : p = ⟨fw, fc, ((size / 2 : Nat) : Int),
      Int.fdiv ((size : Int) - (fw.length : Int)) 2, CWDir.across⟩ := by simpa using hp
  subst hp2
  have hph := writeCells_phys (emptyGrid_wf size) hw k hk
  have e : physPos size
      (nomCell ⟨fw, fc, ((size / 2 : Nat) : Int),
        Int.fdiv ((size : Int) - (fw.length : Int)) 2, CWDir.across⟩ k).1
      (nomCell ⟨fw, fc, ((size / 2 : Nat) : Int),
        Int.fdiv ((size : Int) - (fw.length : Int)) 2, CWDir.across⟩ k).2 =
      physPos size (((size / 2 : Nat) : Int) + 0 * (0 + (k : Int)))
        (Int.fdiv ((size : Int) - (fw.length : Int)) 2 + 1 * (0 + (k : Int))) := by
    apply physPos_congr
    · show ((size / 2 : Nat) : Int) + 0 * (k : Int) =
        ((size / 2 : Nat) : Int) + 0 * (0 + (k : Int))
      ring
    · show Int.fdiv ((size : Int) - (fw.length : Int)) 2 + 1 * (k : Int) =
        Int.fdiv ((size : Int) - (fw.length : Int)) 2 + 1 * (0 + (k : Int))
      ring
  rw [e]
  exact hph

theorem seed_letters {size : Nat} {fw : Word} (fc : String) {g1 : Grid}
    (hlen : fw.length ≤ size)
    (hw : writeCells (emptyGrid size) ((size / 2 : Nat) : Int)
      (Int.fdiv ((size : Int) - (fw.length : Int)) 2) 0 1 fw 0 = .ok g1) :
    LettersOnGrid size g1 [⟨fw, fc, ((size / 2 : Nat) : Int),
      Int.fdiv ((size : Int) - (fw.length : Int)) 2, CWDir.across⟩] := by
  intro p hp k ch hk
  have hp2 : p = ⟨fw, fc, ((size / 2 : Nat) : Int),
      Int.fdiv ((size : Int) - (fw.length : Int)) 2, CWDir.across⟩ := by simpa using hp
  subst hp2
  have hdist := @cells_phys_distinct size ((size / 2 : Nat) : Int)
    (Int.fdiv ((size : Int) - (fw.length : Int)) 2) 0 1 fw 0
    (Or.inl rfl) hlen
  obtain ⟨a, b, hph, hc⟩ := writeCells_letters (emptyGrid_wf size) hw hdist k ch hk
  refine ⟨a, b, ?_, hc⟩
  rw [← hph]
  apply physPos_congr
  · show ((size / 2 : Nat) : Int) + 0 * (k : Int) =
      ((size / 2 : Nat) : Int) + 0 * (0 + (k : Int))
    ring
  · show Int.fdiv ((size : Int) - (fw.length : Int)) 2 + 1 * (k : Int) =
      Int.fdiv ((size : Int) - (fw.length : Int)) 2 + 1 * (0 + (k : Int))
    ring

theorem bndCellOk_of {size : Nat} {g : Grid} {placed : List CWPlacement} {n : Nat}
    {a b : Int}
    (h : ¬ (0 ≤ a ∧ a < (size : Int) ∧ 0 ≤ b ∧ b < (size : Int)) ∨
      cellAt g a.toNat b.toNat = none) :
    bndCellOk size g placed n (a, b) := by
  rcases h with h | h
  · exact Or.inl h
  · exact Or.inr (Or.inl h)

theorem seed_boundary {size : Nat} {fw : Word} (fc : String) {g1 : Grid}
    (hw : writeCells (emptyGrid size) ((size / 2 : Nat) : Int)
      (Int.fdiv ((size : Int) - (fw.length : Int)) 2) 0 1 fw 0 = .ok g1) :
    BoundaryOk size g1 [⟨fw, fc, ((size / 2 : Nat) : Int),
      Int.fdiv ((size : Int) - (fw.length : Int)) 2, CWDir.across⟩] := by
  have hb1 : 2 * Int.fdiv ((size : Int) - (fw.length : Int)) 2 ≤
      (size : Int) - (fw.length : Int) := by
    have h1 := Int.fdiv_add_fmod ((size : Int) - (fw.length : Int)) 2
    have h2 := Int.fmod_nonneg' ((size : Int) - (fw.length : Int)) (by norm_num : (0:Int) < 2)
    omega
  have hb2 : (size : Int) - (fw.length : Int) <
      2 * Int.fdiv ((size : Int) - (fw.length : Int)) 2 + 2 := by
    have h1 := Int.fdiv_add_fmod ((size : Int) - (fw.length : Int)) 2
    have h3 := Int.fmod_lt_of_pos ((size : Int) - (fw.length : Int)) (by norm_num : (0:Int) < 2)
    omega
  intro n p hget
  cases n with
  | succ n2 => exact absurd hget (by simp)
  | zero =>
    have hp2 : p = ⟨fw, fc, ((size / 2 : Nat) : Int),
        Int.fdiv ((size : Int) - (fw.length : Int)) 2, CWDir.across⟩ := by
      simp at hget
      exact hget.symm
    subst hp2
    constructor
    · apply bndCellOk_of
      by_cases hinb : 0 ≤ ((size / 2 : Nat) : Int) - 0 ∧ ((size / 2 : Nat) : Int) - 0 < (size : Int) ∧
          0 ≤ Int.fdiv ((size : Int) - (fw.length : Int)) 2 - 1 ∧
          Int.fdiv ((size : Int) - (fw.length : Int)) 2 - 1 < (size : Int)
      · right
        have hun : ∀ k : Nat, k < fw.length →
            physPos size (((size / 2 : Nat) : Int) + 0 * (0 + (k : Int)))
              (Int.fdiv ((size : Int) - (fw.length : Int)) 2 + 1 * (0 + (k : Int))) ≠
            some ((((size / 2 : Nat) : Int) - 0).toNat,
              (Int.fdiv ((size : Int) - (fw.length : Int)) 2 - 1).toNat) := by
          intro k hk hcontra
          obtain ⟨hpr, hpc⟩ := physPos_eq_some.mp hcontra
          have hch := pyIdx_char hpc
          have ht : ((Int.fdiv ((size : Int) - (fw.length : Int)) 2 - 1).toNat : Int) =
              Int.fdiv ((size : Int) - (fw.length : Int)) 2 - 1 :=
            Int.toNat_of_nonneg hinb.2.2.1
          omega
        have hframe := writeCells_frame (emptyGrid_wf size) hw _ _ hun
        show cellAt g1 (((size / 2 : Nat) : Int) - 0).toNat
          (Int.fdiv ((size : Int) - (fw.length : Int)) 2 - 1).toNat = none
        rw [hframe]
        exact cellAt_emptyGrid size _ _
      · left
        exact hinb
    · apply bndCellOk_of
      by_cases hinb : 0 ≤ ((size / 2 : Nat) : Int) + 0 * (fw.length : Int) ∧
          ((size / 2 : Nat) : Int) + 0 * (fw.length : Int) < (size : Int) ∧
          0 ≤ Int.fdiv ((size : Int) - (fw.length : Int)) 2 + 1 * (fw.length : Int) ∧
          Int.fdiv ((size : Int) - (fw.length : Int)) 2 + 1 * (fw.length : Int) < (size : Int)
      · right
        have hun : ∀ k : Nat, k < fw.length →
            physPos size (((size / 2 : Nat) : Int) + 0 * (0 + (k : Int)))
              (Int.fdiv ((size : Int) - (fw.length : Int)) 2 + 1 * (0 + (k : Int))) ≠
            some ((((size / 2 : Nat) : Int) + 0 * (fw.length : Int)).toNat,
              (Int.fdiv ((size : Int) - (fw.length : Int)) 2 + 1 * (fw.length : Int)).toNat) := by
          intro k hk hcontra
          obtain ⟨hpr, hpc⟩ := physPos_eq_some.mp hcontra
          have hch := pyIdx_char hpc
          have ht : ((Int.fdiv ((size : Int) - (fw.length : Int)) 2 +
              1 * (fw.length : Int)).toNat : Int) =
              Int.fdiv ((size : Int) - (fw.length : Int)) 2 + 1 * (fw.length : Int) :=
            Int.toNat_of_nonneg hinb.2.2.1
          omega
        have hframe := writeCells_frame (emptyGrid_wf size) hw _ _ hun
        show cellAt g1 (((size / 2 : Nat) : Int) + 0 * (fw.length : Int)).toNat
          (Int.fdiv ((size : Int) - (fw.length : Int)) 2 + 1 * (fw.length : Int)).toNat = none
        rw [hframe]
        exact cellAt_emptyGrid size _ _
      · left
        exact hinb

theorem seed_anchored {fw : Word} (fc : String) (startR startC : Int) :
    Anchored [⟨fw, fc, startR, startC, CWDir.across⟩] := by
  intro n hn p hget
  cases n with
  | zero => omega
  | succ n2 => exact absurd hget (by simp)

/-! ### Word-search lemmas -/

theorem placeWordWS_some {size : Nat} {g : Grid} {w : Word} {trials : List WSTrial}
    {rcd : WSRecord} {g2 : Grid}
    (h : placeWordWS size g w trials = .ok (some rcd, g2)) :
    rcd.word = w ∧
    (∃ t ∈ trials, rcd = ⟨w, t.r, t.c, t.dr, t.dc⟩) ∧
    (0 ≤ (rcd.r : Int) + rcd.dr * ((w.length : Int) - 1) ∧
      (rcd.r : Int) + rcd.dr * ((w.length : Int) - 1) < (size : Int) ∧
      0 ≤ (rcd.c : Int) + rcd.dc * ((w.length : Int) - 1) ∧
      (rcd.c : Int) + rcd.dc * ((w.length : Int) - 1) < (size : Int)) ∧
    checkCells g (rcd.r : Int) (rcd.c : Int) rcd.dr rcd.dc w 0 = .ok true ∧
    writeCells g (rcd.r : Int) (rcd.c : Int) rcd.dr rcd.dc w 0 = .ok g2 := by
  induction trials with
  | nil => unfold placeWordWS at h; exact absurd h (by simp)
  | cons t rest ih =>
    unfold placeWordWS at h
    dsimp only at h
    split at h
    · obtain ⟨h1, h2, h3, h4, h5⟩ := ih h
      exact ⟨h1, by
        obtain ⟨t2, ht2, he⟩ := h2
        exact ⟨t2, List.mem_cons_of_mem t ht2, he⟩, h3, h4, h5⟩
    · rename_i hbounds
      rw [not_not] at hbounds
      obtain ⟨ok1, hchk, h2⟩ := bind_ok h
      cases ok1 with
      | false =>
        rw [if_neg (by simp)] at h2
        obtain ⟨h1, hmem, h3, h4, h5⟩ := ih h2
        exact ⟨h1, by
          obtain ⟨t2, ht2, he⟩ := hmem
          exact ⟨t2, List.mem_cons_of_mem t ht2, he⟩, h3, h4, h5⟩
      | true =>
        rw [if_pos rfl] at h2
        obtain ⟨g3, hwrite, h3⟩ := bind_ok h2
        injection h3 with h3
        rw [Prod.mk.injEq] at h3
        obtain ⟨h3a, h3b⟩ := h3
        injection h3a with h3a
        have hrcd : rcd = ⟨w, t.r, t.c, t.dr, t.dc⟩ := h3a.symm
        have hg : g2 = g3 := h3b.symm
        subst hrcd
        subst hg
        exact ⟨rfl, ⟨t, List.mem_cons_self t rest, rfl⟩, hbounds, hchk, hwrite⟩

theorem placeWordWS_none {size : Nat} {g : Grid} {w : Word} {trials : List WSTrial}
    {g2 : Grid} (h : placeWordWS size g w trials = .ok (none, g2)) : g2 = g := by
  induction trials with
  | nil =>
    unfold placeWordWS at h
    injection h with h
    exact (congrArg Prod.snd h).symm
  | cons t rest ih =>
    unfold placeWordWS at h
    dsimp only at h
    split at h
    · exact ih h
    · obtain ⟨ok1, hchk, h2⟩ := bind_ok h
      cases ok1 with
      | false =>
        rw [if_neg (by simp)] at h2
        exact ih h2
      | true =>
        rw [if_pos rfl] at h2
        obtain ⟨g3, hwrite, h3⟩ := bind_ok h2
        injection h3 with h3
        rw [Prod.mk.injEq] at h3
        exact absurd h3.1 (by simp)

/-- Under the ranges guaranteed by `random.randint` and `DIRECTIONS`, every
letter cell of a placed word-search word lies inside the grid. -/
theorem ws_cells_bound {size : Nat} {r c : Nat} {dr dc : Int} {L : Nat}
    (hr : r < size) (hc : c < size) (hdir : (dr, dc) ∈ DIRECTIONS)
    (hend : 0 ≤ (r : Int) + dr * ((L : Int) - 1) ∧ (r : Int) + dr * ((L : Int) - 1) < (size : Int) ∧
      0 ≤ (c : Int) + dc * ((L : Int) - 1) ∧ (c : Int) + dc * ((L : Int) - 1) < (size : Int)) :
    ∀ k : Nat, k < L →
      0 ≤ (r : Int) + dr * (k : Int) ∧ (r : Int) + dr * (k : Int) < (size : Int) ∧
      0 ≤ (c : Int) + dc * (k : Int) ∧ (c : Int) + dc * (k : Int) < (size : Int) := by
  intro k hk
  simp only [DIRECTIONS, List.mem_cons, List.not_mem_nil, or_false, Prod.mk.injEq] at hdir
  rcases hdir with ⟨h1, h2⟩ | ⟨h1, h2⟩ | ⟨h1, h2⟩ | ⟨h1, h2⟩ |
    ⟨h1, h2⟩ | ⟨h1, h2⟩ | ⟨h1, h2⟩ | ⟨h1, h2⟩ <;> subst h1 <;> subst h2 <;> omega

theorem physPos_of_inb {size : Nat} {x y : Int}
    (h : 0 ≤ x ∧ x < (size : Int) ∧ 0 ≤ y ∧ y < (size : Int)) :
    physPos size x y = some (x.toNat, y.toNat) :=
  physPos_eq_some.mpr ⟨pyIdx_of_nonneg h.1 h.2.1, pyIdx_of_nonneg h.2.2.1 h.2.2.2⟩

theorem ws_cells_distinct {size : Nat} {r c : Nat} {dr dc : Int} {w : Word}
    (hr : r < size) (hc : c < size) (hdir : (dr, dc) ∈ DIRECTIONS)
    (hend : 0 ≤ (r : Int) + dr * ((w.length : Int) - 1) ∧
      (r : Int) + dr * ((w.length : Int) - 1) < (size : Int) ∧
      0 ≤ (c : Int) + dc * ((w.length : Int) - 1) ∧
      (c : Int) + dc * ((w.length : Int) - 1) < (size : Int)) :
    ∀ k1 k2 : Nat, k1 < w.length → k2 < w.length →
      (physPos size ((r : Int) + dr * (0 + (k1 : Int))) ((c : Int) + dc * (0 + (k1 : Int)))).isSome →
      physPos size ((r : Int) + dr * (0 + (k1 : Int))) ((c : Int) + dc * (0 + (k1 : Int))) =
        physPos size ((r : Int) + dr * (0 + (k2 : Int))) ((c : Int) + dc * (0 + (k2 : Int))) →
      k1 = k2 := by
  intro k1 k2 hk1 hk2 hsome heq
  have hb1 := ws_cells_bound hr hc hdir hend k1 hk1
  have hb2 := ws_cells_bound hr hc hdir hend k2 hk2
  have e1r : (r : Int) + dr * (0 + (k1 : Int)) = (r : Int) + dr * (k1 : Int) := by ring
  have e1c : (c : Int) + dc * (0 + (k1 : Int)) = (c : Int) + dc * (k1 : Int) := by ring
  have e2r : (r : Int) + dr * (0 + (k2 : Int)) = (r : Int) + dr * (k2 : Int) := by ring
  have e2c : (c : Int) + dc * (0 + (k2 : Int)) = (c : Int) + dc * (k2 : Int) := by ring
  rw [physPos_congr e1r e1c, physPos_congr e2r e2c, physPos_of_inb hb1, physPos_of_inb hb2] at heq
  injection heq with heq
  rw [Prod.mk.injEq] at heq
  obtain ⟨heq1, heq2⟩ := heq
  simp only [DIRECTIONS, List.mem_cons, List.not_mem_nil, or_false, Prod.mk.injEq] at hdir
  rcases hdir with ⟨h1, h2⟩ | ⟨h1, h2⟩ | ⟨h1, h2⟩ | ⟨h1, h2⟩ |
    ⟨h1, h2⟩ | ⟨h1, h2⟩ | ⟨h1, h2⟩ | ⟨h1, h2⟩ <;> subst h1 <;> subst h2 <;> omega

/-- Nominal coordinates of the `k`-th letter of a recorded word-search placement. -/
def nomCellWS (rcd : WSRecord) (k : Nat) : Int × Int :=
  ((rcd.r : Int) + rcd.dr * (k : Int), (rcd.c : Int) + rcd.dc * (k : Int))

/-- All letter cells of the recorded placements lie inside the grid. -/
def WSInRange (size : Nat) (recs : List WSRecord) : Prop :=
  ∀ rcd ∈ recs, ∀ k : Nat, k < rcd.word.length →
    0 ≤ (nomCellWS rcd k).1 ∧ (nomCellWS rcd k).1 < (size : Int) ∧
    0 ≤ (nomCellWS rcd k).2 ∧ (nomCellWS rcd k).2 < (size : Int)

/-- Every letter of every recorded placement is on the grid at its cell. -/
def WSLetters (size : Nat) (g : Grid) (recs : List WSRecord) : Prop :=
  ∀ rcd ∈ recs, ∀ k : Nat, ∀ ch : Char, rcd.word.get? k = some ch →
    cellAt g (nomCellWS rcd k).1.toNat (nomCellWS rcd k).2.toNat = some ch

theorem wsLoop_invariants {size : Nat} {trials : Nat → List WSTrial} {g : Grid}
    {recs : List WSRecord} {idx : Nat} {words : List Word} {g2 : Grid}
    {recs2 : List WSRecord}
    (wf : GridWF size g)
    (htr : ∀ n : Nat, ∀ t ∈ trials n, t.r < size ∧ t.c < size ∧ (t.dr, t.dc) ∈ DIRECTIONS)
    (hin : WSInRange size recs) (hlet : WSLetters size g recs)
    (h : wsLoop size trials g recs idx words = .ok (g2, recs2)) :
    GridWF size g2 ∧ WSInRange size recs2 ∧ WSLetters size g2 recs2 := by
  induction words generalizing g recs idx with
  | nil =>
    unfold wsLoop at h
    injection h with h
    cases h
    exact ⟨wf, hin, hlet⟩
  | cons w rest ih =>
    unfold wsLoop at h
    obtain ⟨res, hres, h2⟩ := bind_ok h
    rcases res with ⟨orcd, g3⟩
    cases orcd with
    | none =>
      have hg3 : g3 = g := placeWordWS_none hres
      subst hg3
      exact ih wf hin hlet h2
    | some rcd =>
      obtain ⟨hword, hmem, hendb, hchk, hwrite⟩ := placeWordWS_some hres
      obtain ⟨t, htmem, hteq⟩ := hmem
      obtain ⟨htr1, htc1, htdir⟩ := htr idx t htmem
      have hr : rcd.r < size := by rw [hteq]; exact htr1
      have hc : rcd.c < size := by rw [hteq]; exact htc1
      have hdirm : (rcd.dr, rcd.dc) ∈ DIRECTIONS := by rw [hteq]; exact htdir
      have hwl : rcd.word.length = w.length := by rw [hword]
      have hbound := @ws_cells_bound size rcd.r rcd.c rcd.dr rcd.dc w.length hr hc hdirm hendb
      have hdist := ws_cells_distinct hr hc hdirm hendb
      have wf3 : GridWF size g3 := writeCells_wf wf hwrite
      apply ih wf3 ?_ ?_ h2
      · intro rcd2 hr2 k hk
        rcases List.mem_append.mp hr2 with hold | hnew
        · exact hin rcd2 hold k hk
        · have : rcd2 = rcd := by simpa using hnew
          subst this
          rw [hwl] at hk
          exact hbound k hk
      · intro rcd2 hr2 k ch hk
        rcases List.mem_append.mp hr2 with hold | hnew
        · have hbold := hin rcd2 hold k (by
            rcases List.get?_eq_some.mp hk with ⟨hlt, _⟩
            exact hlt)
          have hcell := hlet rcd2 hold k ch hk
          have hphys := physPos_of_inb hbold
          by_cases hcov : ∃ k2 : Nat, ∃ ch2 : Char, w.get? k2 = some ch2 ∧
              physPos size ((rcd.r : Int) + rcd.dr * (0 + (k2 : Int)))
                ((rcd.c : Int) + rcd.dc * (0 + (k2 : Int))) =
              some ((nomCellWS rcd2 k).1.toNat, (nomCellWS rcd2 k).2.toNat)
          · obtain ⟨k2, ch2, hk2, hph2⟩ := hcov
            obtain ⟨a2, b2, hph2b, hdisj⟩ := checkCells_ok wf hchk k2 ch2 hk2
            rw [hph2] at hph2b
            injection hph2b.symm with hab
            rw [Prod.mk.injEq] at hab
            rw [hab.1, hab.2] at hdisj
            have hch2 : ch2 = ch := by
              rcases hdisj with hno | hyes
              · rw [hno] at hcell; exact absurd hcell (by simp)
              · rw [hyes] at hcell; injection hcell
            obtain ⟨a3, b3, hph3, hcell3⟩ := writeCells_letters wf hwrite hdist k2 ch2 hk2
            rw [hph2] at hph3
            injection hph3.symm with hab3
            rw [Prod.mk.injEq] at hab3
            rw [hab3.1, hab3.2] at hcell3
            rw [hcell3, hch2]
          · have hframe : cellAt g3 (nomCellWS rcd2 k).1.toNat (nomCellWS rcd2 k).2.toNat =
                cellAt g (nomCellWS rcd2 k).1.toNat (nomCellWS rcd2 k).2.toNat := by
              apply writeCells_frame wf hwrite
              intro k2 hk2 hcontra
              exact hcov ⟨k2, w.get ⟨k2, hk2⟩, List.get?_eq_get hk2, hcontra⟩
            rw [hframe]
            exact hcell
        · have hrr : rcd2 = rcd := by simpa using hnew
          subst hrr
          rw [hword] at hk
          obtain ⟨a, b, hph, hcell⟩ := writeCells_letters wf hwrite hdist k ch hk
          have hkl : k < w.length := by
            rcases List.get?_eq_some.mp hk with ⟨hlt, _⟩
            exact hlt
          have hb := hbound k hkl
          have e1 : (rcd2.r : Int) + rcd2.dr * (0 + (k : Int)) = (nomCellWS rcd2 k).1 := by
            unfold nomCellWS; ring
          have e2 : (rcd2.c : Int) + rcd2.dc * (0 + (k : Int)) = (nomCellWS rcd2 k).2 := by
            unfold nomCellWS; ring
          rw [physPos_congr e1 e2] at hph
          have hb2 : 0 ≤ (nomCellWS rcd2 k).1 ∧ (nomCellWS rcd2 k).1 < (size : Int) ∧
              0 ≤ (nomCellWS rcd2 k).2 ∧ (nomCellWS rcd2 k).2 < (size : Int) := hb
          rw [physPos_of_inb hb2] at hph
          injection hph.symm with hab
          rw [Prod.mk.injEq] at hab
          rw [hab.1, hab.2] at hcell
          exact hcell

theorem fillRowNoise_get (noise : Nat → Nat → Char) (r : Nat) :
    ∀ (row : List Cell) (c0 b : Nat),
      (fillRowNoise noise r row c0)[b]? =
        (row[b]?).map (fun cell =>
          match cell with
          | some ch => some ch
          | none => some (noise r (c0 + b)))
  | [], c0, b => by simp [fillRowNoise]
  | cell :: rest, c0, 0 => by
    cases cell <;> simp [fillRowNoise]
  | cell :: rest, c0, b + 1 => by
    have ih := fillRowNoise_get noise r rest (c0 + 1) b
    have e : c0 + 1 + b = c0 + (b + 1) := by omega
    rw [e] at ih
    cases cell <;> simpa [fillRowNoise] using ih

theorem fillNoiseAux_get (noise : Nat → Nat → Char) :
    ∀ (g : List (List Cell)) (r0 a : Nat),
      (fillNoiseAux noise g r0)[a]? =
        (g[a]?).map (fun row => fillRowNoise noise (r0 + a) row 0)
  | [], r0, a => by simp [fillNoiseAux]
  | row :: rows, r0, 0 => by simp [fillNoiseAux]
  | row :: rows, r0, a + 1 => by
    have ih := fillNoiseAux_get noise rows (r0 + 1) a
    have e : r0 + 1 + a = r0 + (a + 1) := by omega
    rw [e] at ih
    simpa [fillNoiseAux] using ih

theorem fillNoise_keep {g : Grid} {noise : Nat → Nat → Char} {a b : Nat} {ch : Char}
    (h : cellAt g a b = some ch) : cellAt (fillNoise g noise) a b = some ch := by
  unfold cellAt at h ⊢
  unfold fillNoise
  rw [fillNoiseAux_get]
  rcases hrow : g[a]? with _ | row
  · rw [hrow] at h
    simp at h
  · rw [hrow] at h
    simp only [Option.getD_some, Option.map_some'] at h ⊢
    rw [fillRowNoise_get]
    rcases hcell : row[b]? with _ | cell
    · rw [hcell] at h
      simp at h
    · rw [hcell] at h
      simp only [Option.getD_some, Option.map_some'] at h ⊢
      rw [h]

theorem fillNoise_fill {g : Grid} {noise : Nat → Nat → Char} {a b : Nat} {row : List Cell}
    (hrow : g[a]? = some row) (hb : b < row.length) (h : cellAt g a b = none) :
    cellAt (fillNoise g noise) a b = some (noise a b) := by
  unfold cellAt at h ⊢
  unfold fillNoise
  rw [fillNoiseAux_get]
  rw [hrow] at h
  rw [hrow]
  simp only [Option.getD_some, Option.map_some'] at h ⊢
  rw [fillRowNoise_get]
  rcases hcell : row[b]? with _ | cell
  · rw [List.getElem?_eq_none_iff] at hcell
    omega
  · rw [hcell] at h
    simp only [Option.getD_some, Option.map_some'] at h ⊢
    rw [h]
    simp

theorem wordSearchGenerate_ok {size numWords : Nat} {words : List Word}
    {trials : Nat → List WSTrial} {noise : Nat → Nat → Char} {g2 : Grid}
    {recs2 : List WSRecord}
    (h : wordSearchGenerate size numWords words trials noise = .ok (g2, recs2)) :
    ∃ gp, wsLoop size trials (emptyGrid size) [] 0 (words.take numWords) = .ok (gp, recs2) ∧
      g2 = fillNoise gp noise := by
  unfold wordSearchGenerate at h
  obtain ⟨gpair, hloop, h2⟩ := bind_ok h
  rcases gpair with ⟨ga, rb⟩
  injection h2 with h2
  rw [Prod.mk.injEq] at h2
  obtain ⟨h2a, h2b⟩ := h2
  refine ⟨ga, ?_, h2a.symm⟩
  rw [← h2b]
  exact hloop

/-! ### Sorting lemmas (crossword word selection) -/

theorem mem_insertByLenDesc {x z : Word × String} :
    ∀ {l : List (Word × String)}, z ∈ insertByLenDesc x l ↔ z = x ∨ z ∈ l := by
  intro l
  induction l with
  | nil => simp [insertByLenDesc]
  | cons y ys ih =>
    unfold insertByLenDesc
    split
    · simp
    · simp only [List.mem_cons, ih]
      tauto

theorem insertByLenDesc_pairwise {x : Word × String} {l : List (Word × String)}
    (h : List.Pairwise (fun a b : Word × String => b.1.length ≤ a.1.length) l) :
    List.Pairwise (fun a b : Word × String => b.1.length ≤ a.1.length)
      (insertByLenDesc x l) := by
  induction l with
  | nil => simp [insertByLenDesc]
  | cons y ys ih =>
    rw [List.pairwise_cons] at h
    unfold insertByLenDesc
    split
    · rename_i hle
      rw [List.pairwise_cons]
      constructor
      · intro z hz
        rcases List.mem_cons.mp hz with hzy | hzys
        · rw [hzy]; exact hle
        · exact le_trans (h.1 z hzys) hle
      · rw [List.pairwise_cons]
        exact h
    · rename_i hgt
      push_neg at hgt
      rw [List.pairwise_cons]
      constructor
      · intro z hz
        rcases mem_insertByLenDesc.mp hz with hzx | hzys
        · rw [hzx]; omega
        · exact h.1 z hzys
      · exact ih h.2

theorem sortByLenDesc_pairwise (l : List (Word × String)) :
    List.Pairwise (fun a b : Word × String => b.1.length ≤ a.1.length)
      (sortByLenDesc l) := by
  induction l with
  | nil => simp [sortByLenDesc]
  | cons x xs ih => exact insertByLenDesc_pairwise ih

theorem mem_sortByLenDesc {z : Word × String} :
    ∀ {l : List (Word × String)}, z ∈ sortByLenDesc l ↔ z ∈ l := by
  intro l
  induction l with
  | nil => simp [sortByLenDesc]
  | cons x xs ih =>
    show z ∈ insertByLenDesc x (sortByLenDesc xs) ↔ _
    rw [mem_insertByLenDesc, ih]
    simp

/-! ### Crossword numbering (`CrosswordStoryProvider._to_html`, lines 198-206
and 239-248) -/

/-- The sort key order of `sorted(placed, key=lambda x: (x[2], x[3]))`. -/
def keyLe (p q : CWPlacement) : Prop :=
  p.row < q.row ∨ (p.row = q.row ∧ p.col ≤ q.col)

instance (p q : CWPlacement) : Decidable (keyLe p q) :=
  inferInstanceAs (Decidable (_ ∨ _))

/-- Stable insertion step of Python's ascending sort by `(row, col)`. -/
def insertByPos (x : CWPlacement) : List CWPlacement → List CWPlacement
  | [] => [x]
  | y :: ys => if keyLe x y then x :: y :: ys else y :: insertByPos x ys

/-- `placed_sorted = sorted(placed, key=lambda x: (x[2], x[3]))`. -/
def sortByPos (l : List CWPlacement) : List CWPlacement :=
  l.foldr insertByPos []

/-- Lookup in the association list modelling the `number_map` dict. -/
def lookupPos : List ((Int × Int) × Nat) → (Int × Int) → Option Nat
  | [], _ => none
  | (k, v) :: rest, key => if k = key then some v else lookupPos rest key

/-- The numbering loop: `if (r, c) not in number_map: number_map[(r,c)] = num;
num += 1` over `placed_sorted`.  Insertion order is kept, as in a Python dict. -/
def buildAux : List CWPlacement → List ((Int × Int) × Nat) → Nat → List ((Int × Int) × Nat)
  | [], acc, _ => acc
  | p :: ps, acc, n =>
    if (lookupPos acc (p.row, p.col)).isSome then buildAux ps acc n
    else buildAux ps (acc ++ [((p.row, p.col), n)]) (n + 1)

/-- The `number_map` of `_to_html`. -/
def numberMap (placed : List CWPlacement) : List ((Int × Int) × Nat) :=
  buildAux (sortByPos placed) [] 1

/-- The across clue entries `(number, clue, word length)`, in sorted order. -/
def acrossEntries (placed : List CWPlacement) : List (Nat × String × Nat) :=
  (sortByPos placed).filterMap fun p =>
    if p.dir = CWDir.across then
      (lookupPos (numberMap placed) (p.row, p.col)).map fun n => (n, p.clue, p.word.length)
    else none

/-- The down clue entries `(number, clue, word length)`, in sorted order. -/
def downEntries (placed : List CWPlacement) : List (Nat × String × Nat) :=
  (sortByPos placed).filterMap fun p =>
    if p.dir = CWDir.down then
      (lookupPos (numberMap placed) (p.row, p.col)).map fun n => (n, p.clue, p.word.length)
    else none

theorem mem_insertByPos {x z : CWPlacement} :
    ∀ {l : List CWPlacement}, z ∈ insertByPos x l ↔ z = x ∨ z ∈ l := by
  intro l
  induction l with
  | nil => simp [insertByPos]
  | cons y ys ih =>
    unfold insertByPos
    split
    · simp
    · simp only [List.mem_cons, ih]
      tauto

theorem keyLe_total {p q : CWPlacement} (h : ¬ keyLe p q) : keyLe q p := by
  unfold keyLe at h ⊢
  omega

theorem insertByPos_pairwise {x : CWPlacement} {l : List CWPlacement}
    (h : List.Pairwise keyLe l) : List.Pairwise keyLe (insertByPos x l) := by
  induction l with
  | nil => simp [insertByPos]
  | cons y ys ih =>
    rw [List.pairwise_cons] at h
    unfold insertByPos
    split
    · rename_i hle
      rw [List.pairwise_cons]
      constructor
      · intro z hz
        rcases List.mem_cons.mp hz with hzy | hzys
        · rw [hzy]; exact hle
        · have h2 := h.1 z hzys
          unfold keyLe at hle h2 ⊢
          omega
      · rw [List.pairwise_cons]
        exact h
    · rename_i hgt
      have hyx := keyLe_total hgt
      rw [List.pairwise_cons]
      constructor
      · intro z hz
        rcases mem_insertByPos.mp hz with hzx | hzys
        · rw [hzx]; exact hyx
        · exact h.1 z hzys
      · exact ih h.2

theorem sortByPos_pairwise (l : List CWPlacement) : List.Pairwise keyLe (sortByPos l) := by
  induction l with
  | nil => simp [sortByPos]
  | cons x xs ih => exact insertByPos_pairwise ih

theorem mem_sortByPos {z : CWPlacement} :
    ∀ {l : List CWPlacement}, z ∈ sortByPos l ↔ z ∈ l := by
  intro l
  induction l with
  | nil => simp [sortByPos]
  | cons x xs ih =>
    show z ∈ insertByPos x (sortByPos xs) ↔ _
    rw [mem_insertByPos, ih]
    simp

theorem lookupPos_append (m1 m2 : List ((Int × Int) × Nat)) (key : Int × Int) :
    lookupPos (m1 ++ m2) key =
      match lookupPos m1 key with
      | some v => some v
      | none => lookupPos m2 key := by
  induction m1 with
  | nil => simp [lookupPos]
  | cons kv rest ih =>
    rcases kv with ⟨k, v⟩
    by_cases he : k = key
    · simp [lookupPos, he]
    · simp only [List.cons_append, lookupPos, if_neg he]
      exact ih

theorem lookupPos_isSome_iff {m : List ((Int × Int) × Nat)} {key : Int × Int} :
    (lookupPos m key).isSome ↔ key ∈ m.map (fun kv => kv.1) := by
  induction m with
  | nil => simp [lookupPos]
  | cons kv rest ih =>
    rcases kv with ⟨k, v⟩
    unfold lookupPos
    split
    · rename_i he
      subst he
      simp
    · rename_i he
      simp only [List.map_cons, List.mem_cons, ih]
      constructor
      · intro h2
        exact Or.inr h2
      · intro h2
        rcases h2 with h2 | h2
        · exact absurd h2.symm he
        · exact h2

theorem buildAux_snd : ∀ (ps : List CWPlacement) (acc : List ((Int × Int) × Nat)) (n : Nat),
    acc.map (fun kv => kv.2) = List.range' 1 acc.length → n = acc.length + 1 →
    (buildAux ps acc n).map (fun kv => kv.2) = List.range' 1 (buildAux ps acc n).length := by
  intro ps
  induction ps with
  | nil => intro acc n h1 h2; exact h1
  | cons p ps ih =>
    intro acc n h1 h2
    unfold buildAux
    split
    · exact ih acc n h1 h2
    · apply ih
      · rw [List.map_append, h1, List.length_append]
        simp only [List.map_cons, List.map_nil, List.length_cons, List.length_nil]
        rw [List.range'_concat]
        simp
        omega
      · rw [List.length_append]
        simp
        omega

theorem buildAux_keys_nodup : ∀ (ps : List CWPlacement) (acc : List ((Int × Int) × Nat)) (n : Nat),
    (acc.map (fun kv => kv.1)).Nodup → ((buildAux ps acc n).map (fun kv => kv.1)).Nodup := by
  intro ps
  induction ps with
  | nil => intro acc n h1; exact h1
  | cons p ps ih =>
    intro acc n h1
    unfold buildAux
    split
    · exact ih acc n h1
    · rename_i hnone
      apply ih
      rw [List.map_append]
      rw [List.nodup_append]
      refine ⟨h1, by simp, ?_⟩
      intro x hx
      simp only [List.map_cons, List.map_nil, List.mem_singleton]
      intro hx2
      rw [hx2] at hx
      rw [← lookupPos_isSome_iff] at hx
      simp at hnone
      rw [hnone] at hx
      simp at hx

theorem buildAux_keys_sublist : ∀ (ps : List CWPlacement) (acc : List ((Int × Int) × Nat)) (n : Nat),
    ∃ rest, (buildAux ps acc n).map (fun kv => kv.1) = acc.map (fun kv => kv.1) ++ rest ∧
      rest.Sublist (ps.map (fun p => ((p.row, p.col) : Int × Int))) := by
  intro ps
  induction ps with
  | nil => intro acc n; exact ⟨[], by simp [buildAux], List.nil_sublist _⟩
  | cons p ps ih =>
    intro acc n
    unfold buildAux
    split
    · obtain ⟨rest, h1, h2⟩ := ih acc n
      exact ⟨rest, h1, h2.cons _⟩
    · obtain ⟨rest, h1, h2⟩ := ih (acc ++ [((p.row, p.col), n)]) (n + 1)
      refine ⟨(p.row, p.col) :: rest, ?_, h2.cons₂ _⟩
      rw [h1, List.map_append]
      simp

theorem buildAux_lookup_mono : ∀ (ps : List CWPlacement) (acc : List ((Int × Int) × Nat))
    (n : Nat) (key : Int × Int) (v : Nat), lookupPos acc key = some v →
    lookupPos (buildAux ps acc n) key = some v := by
  intro ps
  induction ps with
  | nil => intro acc n key v h1; exact h1
  | cons p ps ih =>
    intro acc n key v h1
    unfold buildAux
    split
    · exact ih acc n key v h1
    · apply ih
      rw [lookupPos_append, h1]

theorem buildAux_covers : ∀ (ps : List CWPlacement) (acc : List ((Int × Int) × Nat)) (n : Nat),
    ∀ p ∈ ps, (lookupPos (buildAux ps acc n) (p.row, p.col)).isSome := by
  intro ps
  induction ps with
  | nil => intro acc n p hp; simp at hp
  | cons p2 ps ih =>
    intro acc n p hp
    rcases List.mem_cons.mp hp with hpe | hpm
    · subst hpe
      unfold buildAux
      split
      · rename_i hsome
        rcases ho : lookupPos acc (p.row, p.col) with _ | v
        · rw [ho] at hsome; simp at hsome
        · rw [buildAux_lookup_mono ps acc n _ v ho]
          rfl
      · rename_i hnone
        have hstep : lookupPos (acc ++ [((p.row, p.col), n)]) (p.row, p.col) = some n := by
          rw [lookupPos_append]
          rcases ho : lookupPos acc (p.row, p.col) with _ | v
          · simp [lookupPos]
          · rw [ho] at hnone; simp at hnone
        rw [buildAux_lookup_mono ps _ (n + 1) _ n hstep]
        rfl
    · unfold buildAux
      split
      · exact ih acc n p hpm
      · exact ih _ (n + 1) p hpm

theorem placeWordWS_reject {size : Nat} {g : Grid} {w : Word} :
    ∀ {trials : List WSTrial},
    (∀ t ∈ trials, ¬ (0 ≤ (t.r : Int) + t.dr * ((w.length : Int) - 1) ∧
      (t.r : Int) + t.dr * ((w.length : Int) - 1) < (size : Int) ∧
      0 ≤ (t.c : Int) + t.dc * ((w.length : Int) - 1) ∧
      (t.c : Int) + t.dc * ((w.length : Int) - 1) < (size : Int))) →
    placeWordWS size g w trials = .ok (none, g) := by
  intro trials hrej
  induction trials with
  | nil => rfl
  | cons t rest ih =>
    show placeWordWS size g w (t :: rest) = .ok (none, g)
    unfold placeWordWS
    dsimp only
    rw [if_pos (hrej t (List.mem_cons_self t rest))]
    exact ih (fun t2 ht2 => hrej t2 (List.mem_cons_of_mem t ht2))

/-- An 8-letter word cannot fit a 5-cell grid in any of the 8 directions. -/
theorem ws_oversize_reject {w : Word} (hlen : w.length = 8) :
    ∀ t : WSTrial, t.r < 5 → t.c < 5 → (t.dr, t.dc) ∈ DIRECTIONS →
    ¬ (0 ≤ (t.r : Int) + t.dr * ((w.length : Int) - 1) ∧
      (t.r : Int) + t.dr * ((w.length : Int) - 1) < ((5 : Nat) : Int) ∧
      0 ≤ (t.c : Int) + t.dc * ((w.length : Int) - 1) ∧
      (t.c : Int) + t.dc * ((w.length : Int) - 1) < ((5 : Nat) : Int)) := by
  intro t hr hc hdir
  rw [hlen]
  simp only [DIRECTIONS, List.mem_cons, List.not_mem_nil, or_false, Prod.mk.injEq] at hdir
  rcases hdir with ⟨h1, h2⟩ | ⟨h1, h2⟩ | ⟨h1, h2⟩ | ⟨h1, h2⟩ |
    ⟨h1, h2⟩ | ⟨h1, h2⟩ | ⟨h1, h2⟩ | ⟨h1, h2⟩ <;> rw [h1, h2] <;> push_cast <;> omega

theorem fillNoise_emptyGrid (size : Nat) (noise : Nat → Nat → Char) :
    ∀ a b : Nat, a < size → b < size →
    cellAt (fillNoise (emptyGrid size) noise) a b = some (noise a b) := by
  intro a b ha hb
  apply @fillNoise_fill (emptyGrid size) noise a b (List.replicate size none)
  · unfold emptyGrid
    exact List.getElem?_replicate_of_lt ha
  · simpa using hb
  · exact cellAt_emptyGrid size a b

/-! ### The claims -/

/-- C1, counterexample: with `grid_size = 7` and the Geography word `MOUNTAIN`
(length 8), `CrosswordStoryProvider._generate` places the seed word at column
`(7 - 8) // 2 = -1`; the returned placement has a letter coordinate outside
`[0, grid_size)`, refuting the claim that every letter cell of every placement
satisfies `0 ≤ r < grid_size` and `0 ≤ c < grid_size`. -/
theorem c1_counterexample :
    cwOutOfBounds 7 (cwPlacements (crosswordGenerate 7 1
      [("MOUNTAIN".toList, "A large natural elevation")])) = true := by decide

/-- C1 (amended): every word-search placement's letter cells satisfy
`0 ≤ r < grid_size` and `0 ≤ c < grid_size` (given origins drawn by
`randint(0, size-1)` and directions from `DIRECTIONS`); every crossword
placement's letter cells lie in `[-grid_size, grid_size)`, the coordinate
range Python list indexing accepts (negative coordinates wrap), which is all
the crossword code guarantees. -/
theorem c1_bounds_amended :
    (∀ (size numWords : Nat) (words : List Word) (trials : Nat → List WSTrial)
      (noise : Nat → Nat → Char) (g2 : Grid) (recs2 : List WSRecord),
      (∀ n : Nat, ∀ t ∈ trials n, t.r < size ∧ t.c < size ∧ (t.dr, t.dc) ∈ DIRECTIONS) →
      wordSearchGenerate size numWords words trials noise = .ok (g2, recs2) →
      WSInRange size recs2) ∧
    (∀ (size numWords : Nat) (wcs : List (Word × String)) (g2 : Grid)
      (placed2 : List CWPlacement),
      crosswordGenerate size numWords wcs = .ok (g2, placed2) →
      CellsInRange size placed2) := by
  constructor
  · intro size n words trials noise g2 recs2 htr h
    obtain ⟨gp, hloop, hfill⟩ := wordSearchGenerate_ok h
    refine (wsLoop_invariants (emptyGrid_wf size) htr ?_ ?_ hloop).2.1
    · intro rcd hrcd
      simp at hrcd
    · intro rcd hrcd
      simp at hrcd
  · intro size n wcs g2 placed2 h
    obtain ⟨fw, fc, rest, g1, hsort, hw, hloop⟩ := crosswordGenerate_ok h
    exact placeLoop_inRange (writeCells_wf (emptyGrid_wf size) hw) (seed_inRange fc hw) hloop

/-- C1 witness: the amended theorem applied to concrete generations. -/
theorem c1_bounds_amended_witness :
    WSInRange 3 (wsRecords (wordSearchGenerate 3 10 [['A', 'B']]
      (fun _ => [⟨0, 1, 0, 0⟩]) (fun _ _ => 'Q'))) ∧
    CellsInRange 7 (cwPlacements (crosswordGenerate 7 2
      [("ABC".toList, "c1"), ("CDE".toList, "c2")])) := by
  constructor
  · exact c1_bounds_amended.1 3 10 [['A', 'B']] (fun _ => [⟨0, 1, 0, 0⟩]) (fun _ _ => 'Q')
      (wsGrid (wordSearchGenerate 3 10 [['A', 'B']] (fun _ => [⟨0, 1, 0, 0⟩]) (fun _ _ => 'Q')))
      (wsRecords (wordSearchGenerate 3 10 [['A', 'B']] (fun _ => [⟨0, 1, 0, 0⟩]) (fun _ _ => 'Q')))
      (by intro n t ht
          simp only [List.mem_singleton] at ht
          subst ht
          exact ⟨by norm_num, by norm_num, by decide⟩)
      (by rfl)
  · exact c1_bounds_amended.2 7 2 [("ABC".toList, "c1"), ("CDE".toList, "c2")]
      (cwGrid (crosswordGenerate 7 2 [("ABC".toList, "c1"), ("CDE".toList, "c2")]))
      (cwPlacements (crosswordGenerate 7 2 [("ABC".toList, "c1"), ("CDE".toList, "c2")]))
      (by rfl)

/-- C2, counterexample: with `grid_size = 7` and words `ABC`, `CPQ`, `PRS`,
`TRU`, the fourth word is placed down at `(3, 5)`, writing `T` into the cell
immediately after `ABC`'s last letter; in the final grid the cell after
`ABC`'s end is in-grid and non-empty, refuting the claim that in the final
crossword every placement's boundary cells are empty or off-grid. -/
theorem c2_counterexample :
    boundaryViolationExists 7 (crosswordGenerate 7 4
      [("ABC".toList, "c1"), ("CPQ".toList, "c2"), ("PRS".toList, "c3"),
        ("TRU".toList, "c4")]) = true := by decide

/-- C2 (amended): `_try_place` checks the boundary cells only against the grid
as it stands when the placement is validated; in the final grid, the cell
immediately before each placement's origin and immediately after its last
letter is off-grid, empty, or holds a letter written by this or a later
placement (`BoundaryOk`). -/
theorem c2_boundary_amended :
    ∀ (size numWords : Nat) (wcs : List (Word × String)) (g2 : Grid)
      (placed2 : List CWPlacement),
      crosswordGenerate size numWords wcs = .ok (g2, placed2) →
      BoundaryOk size g2 placed2 := by
  intro size n wcs g2 placed2 h
  obtain ⟨fw, fc, rest, g1, hsort, hw, hloop⟩ := crosswordGenerate_ok h
  exact placeLoop_boundary (writeCells_wf (emptyGrid_wf size) hw) (seed_boundary fc hw) hloop

/-- C2 witness: the amended theorem applied to a concrete generation. -/
theorem c2_boundary_amended_witness :
    BoundaryOk 7 (cwGrid (crosswordGenerate 7 2 [("ABC".toList, "c1"), ("CDE".toList, "c2")]))
      (cwPlacements (crosswordGenerate 7 2 [("ABC".toList, "c1"), ("CDE".toList, "c2")])) :=
  c2_boundary_amended 7 2 [("ABC".toList, "c1"), ("CDE".toList, "c2")]
    (cwGrid (crosswordGenerate 7 2 [("ABC".toList, "c1"), ("CDE".toList, "c2")]))
    (cwPlacements (crosswordGenerate 7 2 [("ABC".toList, "c1"), ("CDE".toList, "c2")]))
    (by rfl)

/-- C3, counterexample: with `grid_size = 5` and five length-6 words, the seed
`ABCDEF` is placed at column `-1` and the word `FBCDEF` is later placed at the
same origin `(2, -1)` across (both validated against the Python-wrapped
physical cells); the two placements share nominal cell `(2, -1)` carrying `A`
in one and `F` in the other, refuting the claim that coinciding letter cells
always carry identical letters. -/
theorem c3_counterexample :
    placementsConflictExists (cwPlacements (crosswordGenerate 5 5
      [("ABCDEF".toList, "c1"), ("GHIDJK".toList, "c2"), ("LMNEPQ".toList, "c3"),
        ("RSTJPU".toList, "c4"), ("FBCDEF".toList, "c5")])) = true := by decide

/-- C3 (amended): coinciding letter cells of two placements carry the same
letter — unconditionally for the word search, and for the crossword provided
every selected word is no longer than `grid_size` (so that no placement's
cells wrap around the Python index range onto each other). -/
theorem c3_collision_amended :
    (∀ (size numWords : Nat) (words : List Word) (trials : Nat → List WSTrial)
      (noise : Nat → Nat → Char) (g2 : Grid) (recs2 : List WSRecord),
      (∀ n : Nat, ∀ t ∈ trials n, t.r < size ∧ t.c < size ∧ (t.dr, t.dc) ∈ DIRECTIONS) →
      wordSearchGenerate size numWords words trials noise = .ok (g2, recs2) →
      ∀ r1 ∈ recs2, ∀ r2 ∈ recs2, ∀ k1 k2 : Nat, ∀ ch1 ch2 : Char,
        r1.word.get? k1 = some ch1 → r2.word.get? k2 = some ch2 →
        nomCellWS r1 k1 = nomCellWS r2 k2 → ch1 = ch2) ∧
    (∀ (size numWords : Nat) (wcs : List (Word × String)) (g2 : Grid)
      (placed2 : List CWPlacement),
      (∀ wc ∈ wcs, wc.1.length ≤ size) →
      crosswordGenerate size numWords wcs = .ok (g2, placed2) →
      ∀ p ∈ placed2, ∀ q ∈ placed2, ∀ i j : Nat, ∀ chp chq : Char,
        p.word.get? i = some chp → q.word.get? j = some chq →
        nomCell p i = nomCell q j → chp = chq) := by
  constructor
  · intro size n words trials noise g2 recs2 htr h r1 h1 r2 h2 k1 k2 ch1 ch2 hc1 hc2 heq
    obtain ⟨gp, hloop, hfill⟩ := wordSearchGenerate_ok h
    have hlet := (wsLoop_invariants (emptyGrid_wf size) htr
      (by intro rcd hrcd; simp at hrcd) (by intro rcd hrcd; simp at hrcd) hloop).2.2
    have e1 := hlet r1 h1 k1 ch1 hc1
    have e2 := hlet r2 h2 k2 ch2 hc2
    rw [heq] at e1
    rw [e1] at e2
    injection e2
  · intro size n wcs g2 placed2 hlen h p hp q hq i j chp chq hcp hcq heq
    obtain ⟨fw, fc, rest, g1, hsort, hw, hloop⟩ := crosswordGenerate_ok h
    have hfwlen : fw.length ≤ size := by
      have : (fw, fc) ∈ sortByLenDesc (wcs.take n) := by rw [hsort]; simp
      rw [mem_sortByLenDesc] at this
      exact hlen (fw, fc) (List.mem_of_mem_take this)
    have hrestlen : ∀ wcl ∈ rest, wcl.1.length ≤ size := by
      intro wcl hwcl
      have : wcl ∈ sortByLenDesc (wcs.take n) := by rw [hsort]; simp [hwcl]
      rw [mem_sortByLenDesc] at this
      exact hlen wcl (List.mem_of_mem_take this)
    have hlet := placeLoop_letters (writeCells_wf (emptyGrid_wf size) hw)
      (seed_letters fc hfwlen hw) hrestlen hloop
    obtain ⟨a1, b1, hph1, hc1⟩ := hlet p hp i chp hcp
    obtain ⟨a2, b2, hph2, hc2⟩ := hlet q hq j chq hcq
    have e : (nomCell p i).1 = (nomCell q j).1 ∧ (nomCell p i).2 = (nomCell q j).2 := by
      rw [heq]; exact ⟨rfl, rfl⟩
    rw [physPos_congr e.1 e.2, hph2] at hph1
    injection hph1 with hab
    rw [Prod.mk.injEq] at hab
    rw [← hab.1, ← hab.2] at hc1
    have hfin := hc1.symm.trans hc2
    injection hfin

/-- C3 witness: the amended theorem applied to concrete generations. -/
theorem c3_collision_amended_witness :
    (∀ r1 ∈ wsRecords (wordSearchGenerate 3 10 [['A', 'B']]
        (fun _ => [⟨0, 1, 0, 0⟩]) (fun _ _ => 'Q')),
      ∀ r2 ∈ wsRecords (wordSearchGenerate 3 10 [['A', 'B']]
        (fun _ => [⟨0, 1, 0, 0⟩]) (fun _ _ => 'Q')),
      ∀ k1 k2 : Nat, ∀ ch1 ch2 : Char,
        r1.word.get? k1 = some ch1 → r2.word.get? k2 = some ch2 →
        nomCellWS r1 k1 = nomCellWS r2 k2 → ch1 = ch2) ∧
    (∀ p ∈ cwPlacements (crosswordGenerate 7 2 [("ABC".toList, "c1"), ("CDE".toList, "c2")]),
      ∀ q ∈ cwPlacements (crosswordGenerate 7 2 [("ABC".toList, "c1"), ("CDE".toList, "c2")]),
      ∀ i j : Nat, ∀ chp chq : Char,
        p.word.get? i = some chp → q.word.get? j = some chq →
        nomCell p i = nomCell q j → chp = chq) := by
  constructor
  · exact c3_collision_amended.1 3 10 [['A', 'B']] (fun _ => [⟨0, 1, 0, 0⟩]) (fun _ _ => 'Q')
      (wsGrid (wordSearchGenerate 3 10 [['A', 'B']] (fun _ => [⟨0, 1, 0, 0⟩]) (fun _ _ => 'Q')))
      (wsRecords (wordSearchGenerate 3 10 [['A', 'B']] (fun _ => [⟨0, 1, 0, 0⟩]) (fun _ _ => 'Q')))
      (by intro n t ht
          simp only [List.mem_singleton] at ht
          subst ht
          exact ⟨by norm_num, by norm_num, by decide⟩)
      (by rfl)
  · exact c3_collision_amended.2 7 2 [("ABC".toList, "c1"), ("CDE".toList, "c2")]
      (cwGrid (crosswordGenerate 7 2 [("ABC".toList, "c1"), ("CDE".toList, "c2")]))
      (cwPlacements (crosswordGenerate 7 2 [("ABC".toList, "c1"), ("CDE".toList, "c2")]))
      (by intro wc hwc
          simp at hwc
          rcases hwc with h | h <;> subst h <;> decide)
      (by rfl)

/-- C4, counterexample: with `grid_size = 5` and a single 8-letter word, the
crossword generator does not reject the word: it writes the seed unconditionally
from column `(5 - 8) // 2 = -2` and raises `IndexError` when the write reaches
column 5, refuting the claim that generation raises no exception. -/
theorem c4_counterexample :
    crosswordGenerate 5 1 [("ELEPHANT".toList, "Large animal")] = .error () := by rfl

/-- C4 (amended): with `grid_size = 5` and a single 8-letter word, the word
search rejects every trial (the end point never fits), returns zero placements
and an all-noise grid without touching any cell outside the grid; the
crossword generator instead places the oversized seed word unconditionally,
which raises `IndexError`. -/
theorem c4_oversized_amended :
    (∀ (w : Word) (numWords : Nat) (trials : Nat → List WSTrial)
      (noise : Nat → Nat → Char),
      w.length = 8 → 1 ≤ numWords →
      (∀ n : Nat, ∀ t ∈ trials n, t.r < 5 ∧ t.c < 5 ∧ (t.dr, t.dc) ∈ DIRECTIONS) →
      wordSearchGenerate 5 numWords [w] trials noise =
        .ok (fillNoise (emptyGrid 5) noise, []) ∧
      (∀ a b : Nat, a < 5 → b < 5 →
        cellAt (fillNoise (emptyGrid 5) noise) a b = some (noise a b))) ∧
    crosswordGenerate 5 1 [("ELEPHANT".toList, "Large animal")] = .error () := by
  constructor
  · intro w numWords trials noise hlen hn htr
    constructor
    · have hreject : placeWordWS 5 (emptyGrid 5) w (trials 0) = .ok (none, emptyGrid 5) := by
        apply placeWordWS_reject
        intro t ht
        obtain ⟨h1, h2, h3⟩ := htr 0 t ht
        exact ws_oversize_reject hlen t h1 h2 h3
      unfold wordSearchGenerate
      rw [List.take_of_length_le (by simpa using hn)]
      unfold wsLoop
      rw [hreject]
      rfl
    · exact fillNoise_emptyGrid 5 noise
  · rfl

/-- C4 witness: the amended theorem applied at a concrete trial sequence. -/
theorem c4_oversized_amended_witness :
    wordSearchGenerate 5 3 ["ELEPHANT".toList] (fun _ => [⟨0, 1, 2, 3⟩])
      (fun _ _ => 'Q') = .ok (fillNoise (emptyGrid 5) (fun _ _ => 'Q'), []) ∧
    cellAt (fillNoise (emptyGrid 5) (fun _ _ => 'Q')) 2 3 = some 'Q' :=
  ⟨(c4_oversized_amended.1 "ELEPHANT".toList 3 (fun _ => [⟨0, 1, 2, 3⟩]) (fun _ _ => 'Q')
      (by decide) (by norm_num)
      (by intro n t ht
          simp only [List.mem_singleton] at ht
          subst ht
          exact ⟨by norm_num, by norm_num, by decide⟩)).1,
    (c4_oversized_amended.1 "ELEPHANT".toList 3 (fun _ => [⟨0, 1, 2, 3⟩]) (fun _ _ => 'Q')
      (by decide) (by norm_num)
      (by intro n t ht
          simp only [List.mem_singleton] at ht
          subst ht
          exact ⟨by norm_num, by norm_num, by decide⟩)).2 2 3 (by norm_num) (by norm_num)⟩

/-- C5, counterexample: on an empty theme word list the crossword generator
reads `word_clues[0]` and raises `IndexError`, refuting the claim that an
empty word list yields a valid empty result for both providers. -/
theorem c5_counterexample :
    crosswordGenerate 15 10 [] = .error () := by rfl

/-- C5 (amended): on an empty theme word list the word search completes
without error and returns zero placements and an all-noise grid; the
crossword generator raises `IndexError` (`word_clues[0]` on an empty list). -/
theorem c5_empty_amended :
    (∀ (size numWords : Nat) (trials : Nat → List WSTrial) (noise : Nat → Nat → Char),
      wordSearchGenerate size numWords [] trials noise =
        .ok (fillNoise (emptyGrid size) noise, []) ∧
      (∀ a b : Nat, a < size → b < size →
        cellAt (fillNoise (emptyGrid size) noise) a b = some (noise a b))) ∧
    (∀ numWords : Nat, crosswordGenerate 15 numWords [] = .error ()) := by
  constructor
  · intro size numWords trials noise
    constructor
    · unfold wordSearchGenerate
      rw [List.take_nil]
      rfl
    · exact fillNoise_emptyGrid size noise
  · intro numWords
    unfold crosswordGenerate
    rw [List.take_nil]
    rfl

/-- C5 witness: the amended theorem applied at concrete inputs. -/
theorem c5_empty_amended_witness :
    wordSearchGenerate 4 10 [] (fun _ => []) (fun _ _ => 'Z') =
      .ok (fillNoise (emptyGrid 4) (fun _ _ => 'Z'), []) ∧
    cellAt (fillNoise (emptyGrid 4) (fun _ _ => 'Z')) 1 2 = some 'Z' ∧
    crosswordGenerate 15 10 [] = .error () :=
  ⟨(c5_empty_amended.1 4 10 (fun _ => []) (fun _ _ => 'Z')).1,
   (c5_empty_amended.1 4 10 (fun _ => []) (fun _ _ => 'Z')).2 1 2 (by norm_num) (by norm_num),
   c5_empty_amended.2 10⟩

/-- C6 (confirmed): every word recorded in a word-search result is readable in
the final grid, starting at the origin where `_place_word` wrote it and walking
its direction for the word's full length; and the noise fill only writes cells
that are still empty — it never changes a cell that already holds a letter. -/
theorem c6_readback :
    ∀ (size numWords : Nat) (words : List Word) (trials : Nat → List WSTrial)
      (noise : Nat → Nat → Char) (g2 : Grid) (recs2 : List WSRecord),
      (∀ n : Nat, ∀ t ∈ trials n, t.r < size ∧ t.c < size ∧ (t.dr, t.dc) ∈ DIRECTIONS) →
      wordSearchGenerate size numWords words trials noise = .ok (g2, recs2) →
      (∀ rcd ∈ recs2, ∀ k : Nat, ∀ ch : Char, rcd.word.get? k = some ch →
        cellAt g2 (nomCellWS rcd k).1.toNat (nomCellWS rcd k).2.toNat = some ch) ∧
      (∀ (g : Grid) (a b : Nat) (ch : Char), cellAt g a b = some ch →
        cellAt (fillNoise g noise) a b = some ch) := by
  intro size n words trials noise g2 recs2 htr h
  obtain ⟨gp, hloop, hfill⟩ := wordSearchGenerate_ok h
  have hlet := (wsLoop_invariants (emptyGrid_wf size) htr
    (by intro rcd hrcd; simp at hrcd) (by intro rcd hrcd; simp at hrcd) hloop).2.2
  constructor
  · intro rcd hrcd k ch hk
    rw [hfill]
    exact fillNoise_keep (hlet rcd hrcd k ch hk)
  · intro g a b ch hc
    exact fillNoise_keep hc

/-- C6 witness: the readback theorem applied to a concrete generation. -/
theorem c6_readback_witness :
    (∀ rcd ∈ wsRecords (wordSearchGenerate 3 10 [['A', 'B']]
        (fun _ => [⟨0, 1, 0, 0⟩]) (fun _ _ => 'Q')),
      ∀ k : Nat, ∀ ch : Char, rcd.word.get? k = some ch →
        cellAt (wsGrid (wordSearchGenerate 3 10 [['A', 'B']]
          (fun _ => [⟨0, 1, 0, 0⟩]) (fun _ _ => 'Q')))
          (nomCellWS rcd k).1.toNat (nomCellWS rcd k).2.toNat = some ch) ∧
    (∀ (g : Grid) (a b : Nat) (ch : Char), cellAt g a b = some ch →
      cellAt (fillNoise g (fun _ _ => 'Q')) a b = some ch) :=
  c6_readback 3 10 [['A', 'B']] (fun _ => [⟨0, 1, 0, 0⟩]) (fun _ _ => 'Q')
    (wsGrid (wordSearchGenerate 3 10 [['A', 'B']] (fun _ => [⟨0, 1, 0, 0⟩]) (fun _ _ => 'Q')))
    (wsRecords (wordSearchGenerate 3 10 [['A', 'B']] (fun _ => [⟨0, 1, 0, 0⟩]) (fun _ _ => 'Q')))
    (by intro n t ht
        simp only [List.mem_singleton] at ht
        subst ht
        exact ⟨by norm_num, by norm_num, by decide⟩)
    (by rfl)

/-- C7 (confirmed): generation is a pure function of its inputs; in this
embedding all random draws are explicit inputs, so a fixed seed — i.e. equal
realized random values — yields byte-identical grids and placement lists for
both providers. -/
theorem c7_determinism :
    (∀ (size numWords : Nat) (words : List Word)
      (trials1 trials2 : Nat → List WSTrial) (noise1 noise2 : Nat → Nat → Char),
      (∀ i : Nat, trials1 i = trials2 i) → (∀ a b : Nat, noise1 a b = noise2 a b) →
      wordSearchGenerate size numWords words trials1 noise1 =
        wordSearchGenerate size numWords words trials2 noise2) ∧
    (∀ (size numWords : Nat) (wcs1 wcs2 : List (Word × String)), wcs1 = wcs2 →
      crosswordGenerate size numWords wcs1 = crosswordGenerate size numWords wcs2) := by
  constructor
  · intro size n words trials1 trials2 noise1 noise2 ht hn
    have e1 : trials1 = trials2 := funext ht
    have e2 : noise1 = noise2 := funext fun a => funext fun b => hn a b
    rw [e1, e2]
  · intro size n wcs1 wcs2 he
    rw [he]

/-- C7 witness: determinism applied at concrete equal random inputs. -/
theorem c7_determinism_witness :
    wordSearchGenerate 3 10 [['A', 'B']] (fun _ => [⟨0, 1, 0, 0⟩]) (fun _ _ => 'Q') =
      wordSearchGenerate 3 10 [['A', 'B']] (fun _ => [⟨0, 1, 0, 0⟩]) (fun _ _ => 'Q') ∧
    crosswordGenerate 7 2 [("ABC".toList, "c1")] =
      crosswordGenerate 7 2 [("ABC".toList, "c1")] :=
  ⟨c7_determinism.1 3 10 [['A', 'B']] (fun _ => [⟨0, 1, 0, 0⟩]) (fun _ => [⟨0, 1, 0, 0⟩])
      (fun _ _ => 'Q') (fun _ _ => 'Q') (fun _ => rfl) (fun _ _ => rfl),
   c7_determinism.2 7 2 [("ABC".toList, "c1")] [("ABC".toList, "c1")] rfl⟩

/-- C8 (confirmed): the crossword generator sorts the selected `(word, clue)`
pairs by word length, descending (Python's stable sort), and its first
placement is the longest selected word, placed across at
`row = grid_size // 2`, `col = (grid_size - len(word)) // 2`. -/
theorem c8_sort_and_seed :
    ∀ (size numWords : Nat) (wcs : List (Word × String)) (g2 : Grid)
      (placed2 : List CWPlacement),
      crosswordGenerate size numWords wcs = .ok (g2, placed2) →
      List.Pairwise (fun a b : Word × String => b.1.length ≤ a.1.length)
        (sortByLenDesc (wcs.take numWords)) ∧
      ∃ fw fc rest, sortByLenDesc (wcs.take numWords) = (fw, fc) :: rest ∧
        placed2.head? = some ⟨fw, fc, ((size / 2 : Nat) : Int),
          Int.fdiv ((size : Int) - (fw.length : Int)) 2, CWDir.across⟩ ∧
        ∀ wc ∈ wcs.take numWords, wc.1.length ≤ fw.length := by
  intro size n wcs g2 placed2 h
  obtain ⟨fw, fc, rest, g1, hsort, hw, hloop⟩ := crosswordGenerate_ok h
  refine ⟨sortByLenDesc_pairwise _, fw, fc, rest, hsort, ?_, ?_⟩
  · obtain ⟨suffix, hs⟩ := placeLoop_prefix hloop
    rw [hs]
    simp
  · intro wc hwc
    have hmem : wc ∈ sortByLenDesc (wcs.take n) := mem_sortByLenDesc.mpr hwc
    rw [hsort] at hmem
    rcases List.mem_cons.mp hmem with he | hr
    · rw [he]
    · have hpw := sortByLenDesc_pairwise (wcs.take n)
      rw [hsort, List.pairwise_cons] at hpw
      exact hpw.1 wc hr

/-- C8 witness: the sorting/seed theorem applied to a concrete generation. -/
theorem c8_sort_and_seed_witness :
    List.Pairwise (fun a b : Word × String => b.1.length ≤ a.1.length)
      (sortByLenDesc (([("ABC".toList, "c1"), ("CDE".toList, "c2")] :
        List (Word × String)).take 2)) ∧
    ∃ fw fc rest, sortByLenDesc (([("ABC".toList, "c1"), ("CDE".toList, "c2")] :
        List (Word × String)).take 2) = (fw, fc) :: rest ∧
      (cwPlacements (crosswordGenerate 7 2
        [("ABC".toList, "c1"), ("CDE".toList, "c2")])).head? =
        some ⟨fw, fc, ((7 / 2 : Nat) : Int),
          Int.fdiv ((7 : Int) - (fw.length : Int)) 2, CWDir.across⟩ ∧
      ∀ wc ∈ ([("ABC".toList, "c1"), ("CDE".toList, "c2")] :
        List (Word × String)).take 2, wc.1.length ≤ fw.length :=
  c8_sort_and_seed 7 2 [("ABC".toList, "c1"), ("CDE".toList, "c2")]
    (cwGrid (crosswordGenerate 7 2 [("ABC".toList, "c1"), ("CDE".toList, "c2")]))
    (cwPlacements (crosswordGenerate 7 2 [("ABC".toList, "c1"), ("CDE".toList, "c2")]))
    (by rfl)

/-- C9 (confirmed): crossword numbering assigns the consecutive integers
`1, 2, …` to the distinct starting cells of the placements in `(row, col)`
ascending order: the numbers form `range' 1`, the numbered cells are distinct
and ascending, every placement's start is numbered, and a cell shared by an
across start and a down start gets exactly one number, which appears in both
the across and the down clue entries. -/
theorem c9_numbering :
    ∀ placed : List CWPlacement,
      ((numberMap placed).map (fun kv => kv.2) =
        List.range' 1 (numberMap placed).length) ∧
      (((numberMap placed).map (fun kv => kv.1)).Nodup) ∧
      (List.Pairwise (fun a b : Int × Int => a.1 < b.1 ∨ (a.1 = b.1 ∧ a.2 ≤ b.2))
        ((numberMap placed).map (fun kv => kv.1))) ∧
      (∀ p ∈ placed, (lookupPos (numberMap placed) (p.row, p.col)).isSome) ∧
      (∀ p ∈ placed, ∀ q ∈ placed, p.dir = CWDir.across → q.dir = CWDir.down →
        p.row = q.row → p.col = q.col →
        ∃ nn : Nat, lookupPos (numberMap placed) (p.row, p.col) = some nn ∧
          lookupPos (numberMap placed) (q.row, q.col) = some nn ∧
          (nn, p.clue, p.word.length) ∈ acrossEntries placed ∧
          (nn, q.clue, q.word.length) ∈ downEntries placed) := by
  intro placed
  refine ⟨?_, ?_, ?_, ?_, ?_⟩
  · exact buildAux_snd (sortByPos placed) [] 1 (by simp) (by simp)
  · exact buildAux_keys_nodup (sortByPos placed) [] 1 (by simp)
  · obtain ⟨rest, h1, h2⟩ := buildAux_keys_sublist (sortByPos placed) [] 1
    rw [numberMap, h1]
    simp only [List.map_nil, List.nil_append]
    apply List.Pairwise.sublist h2
    rw [List.pairwise_map]
    have := sortByPos_pairwise placed
    apply List.Pairwise.imp ?_ this
    intro p q hle
    exact hle
  · intro p hp
    exact buildAux_covers (sortByPos placed) [] 1 p (mem_sortByPos.mpr hp)
  · intro p hp q hq hpd hqd hrow hcol
    have hcov := buildAux_covers (sortByPos placed) [] 1 p (mem_sortByPos.mpr hp)
    rcases ho : lookupPos (numberMap placed) (p.row, p.col) with _ | nn
    · rw [numberMap] at ho
      rw [ho] at hcov
      simp at hcov
    · refine ⟨nn, rfl, by rw [← hrow, ← hcol]; exact ho, ?_, ?_⟩
      · rw [acrossEntries]
        rw [List.mem_filterMap]
        refine ⟨p, mem_sortByPos.mpr hp, ?_⟩
        rw [if_pos hpd, ho]
        rfl
      · rw [downEntries]
        rw [List.mem_filterMap]
        refine ⟨q, mem_sortByPos.mpr hq, ?_⟩
        rw [if_pos hqd, ← hrow, ← hcol, ho]
        rfl

/-- C9 witness: the numbering theorem applied to a concrete placement list
with an across and a down placement sharing their starting cell. -/
theorem c9_numbering_witness :
    ∀ p ∈ [(⟨"ACE".toList, "c1", 2, 3, CWDir.across⟩ : CWPlacement),
        ⟨"ARC".toList, "c2", 2, 3, CWDir.down⟩],
      ∀ q ∈ [(⟨"ACE".toList, "c1", 2, 3, CWDir.across⟩ : CWPlacement),
        ⟨"ARC".toList, "c2", 2, 3, CWDir.down⟩],
      p.dir = CWDir.across → q.dir = CWDir.down →
      p.row = q.row → p.col = q.col →
      ∃ nn : Nat, lookupPos (numberMap [⟨"ACE".toList, "c1", 2, 3, CWDir.across⟩,
          ⟨"ARC".toList, "c2", 2, 3, CWDir.down⟩]) (p.row, p.col) = some nn ∧
        lookupPos (numberMap [⟨"ACE".toList, "c1", 2, 3, CWDir.across⟩,
          ⟨"ARC".toList, "c2", 2, 3, CWDir.down⟩]) (q.row, q.col) = some nn ∧
        (nn, p.clue, p.word.length) ∈ acrossEntries [⟨"ACE".toList, "c1", 2, 3, CWDir.across⟩,
          ⟨"ARC".toList, "c2", 2, 3, CWDir.down⟩] ∧
        (nn, q.clue, q.word.length) ∈ downEntries [⟨"ACE".toList, "c1", 2, 3, CWDir.across⟩,
          ⟨"ARC".toList, "c2", 2, 3, CWDir.down⟩] :=
  (c9_numbering [⟨"ACE".toList, "c1", 2, 3, CWDir.across⟩,
    ⟨"ARC".toList, "c2", 2, 3, CWDir.down⟩]).2.2.2.2

/-- C10 (confirmed): in every crossword result, each placement after the first
shares a nominal letter cell with some earlier placement, the letters of the
two words agree at the shared cell, and its orientation is perpendicular to
that earlier placement's orientation. -/
theorem c10_anchored :
    ∀ (size numWords : Nat) (wcs : List (Word × String)) (g2 : Grid)
      (placed2 : List CWPlacement),
      crosswordGenerate size numWords wcs = .ok (g2, placed2) →
      Anchored placed2 := by
  intro size n wcs g2 placed2 h
  obtain ⟨fw, fc, rest, g1, hsort, hw, hloop⟩ := crosswordGenerate_ok h
  exact placeLoop_anchored (seed_anchored fc _ _) hloop

/-- C10 witness: the anchoring theorem applied to a concrete two-word run. -/
theorem c10_anchored_witness :
    Anchored (cwPlacements (crosswordGenerate 7 2
      [("ABC".toList, "c1"), ("CDE".toList, "c2")])) :=
  c10_anchored 7 2 [("ABC".toList, "c1"), ("CDE".toList, "c2")]
    (cwGrid (crosswordGenerate 7 2 [("ABC".toList, "c1"), ("CDE".toList, "c2")]))
    (cwPlacements (crosswordGenerate 7 2 [("ABC".toList, "c1"), ("CDE".toList, "c2")]))
    (by rfl)
